import Mathlib

/-
Verification of the plane-rectification geometry core of the
extreme-two-view-matching repository.

The Python source operates on torch / numpy float tensors.  Batched tensor
operations act independently on each element of the batch, so the embedding
models a single batch element (or an explicit list for genuine batches).
Float arithmetic is modelled over the reals; where IEEE NaN behaviour is the
point of a claim (the k-means centre update), reals are wrapped in Option
with none standing for a non-real (NaN) result.  External library calls
(torch.svd, cv2.connectedComponents) are modelled by passing their result in
as data together with the contract the library documents for it.
-/

/-! ## Small concrete matrices

`Mat2 α` is a 2x2 matrix [[a, b], [c, d]]; `Mat3 α` is a 3x3 matrix
with entries `mIJ` in row-major order.  The source manipulates such
matrices entrywise via torch, so an explicit structure mirrors it directly. -/

structure Mat2 (α : Type) where
  a : α
  b : α
  c : α
  d : α
  deriving DecidableEq, Repr

structure Mat3 (α : Type) where
  m11 : α
  m12 : α
  m13 : α
  m21 : α
  m22 : α
  m23 : α
  m31 : α
  m32 : α
  m33 : α
  deriving DecidableEq, Repr

def Mat2.mul {α : Type} [Field α] (A B : Mat2 α) : Mat2 α :=
  ⟨A.a * B.a + A.b * B.c, A.a * B.b + A.b * B.d,
   A.c * B.a + A.d * B.c, A.c * B.b + A.d * B.d⟩

def Mat2.det {α : Type} [Field α] (A : Mat2 α) : α :=
  A.a * A.d - A.b * A.c

/-- torch.inverse of a 2x2 matrix (adjugate over the determinant). -/
def Mat2.inv {α : Type} [Field α] (A : Mat2 α) : Mat2 α :=
  ⟨A.d / A.det, -A.b / A.det, -A.c / A.det, A.a / A.det⟩

def Mat2.transpose {α : Type} (A : Mat2 α) : Mat2 α :=
  ⟨A.a, A.c, A.b, A.d⟩

def Mat2.smul {α : Type} [Field α] (x : α) (A : Mat2 α) : Mat2 α :=
  ⟨x * A.a, x * A.b, x * A.c, x * A.d⟩

/-- Row swap of a 2x2 matrix (the dets_v < 0 branch of swap_rows in
decompose_lin_maps swaps the two rows of the tensor). -/
def Mat2.swapRows {α : Type} (A : Mat2 α) : Mat2 α :=
  ⟨A.c, A.d, A.a, A.b⟩

def Mat2.id2 {α : Type} [Field α] : Mat2 α := ⟨1, 0, 0, 1⟩

def Mat2.diagM {α : Type} [Field α] (x y : α) : Mat2 α := ⟨x, 0, 0, y⟩

def Mat3.mul {α : Type} [Field α] (A B : Mat3 α) : Mat3 α :=
  ⟨A.m11 * B.m11 + A.m12 * B.m21 + A.m13 * B.m31,
   A.m11 * B.m12 + A.m12 * B.m22 + A.m13 * B.m32,
   A.m11 * B.m13 + A.m12 * B.m23 + A.m13 * B.m33,
   A.m21 * B.m11 + A.m22 * B.m21 + A.m23 * B.m31,
   A.m21 * B.m12 + A.m22 * B.m22 + A.m23 * B.m32,
   A.m21 * B.m13 + A.m22 * B.m23 + A.m23 * B.m33,
   A.m31 * B.m11 + A.m32 * B.m21 + A.m33 * B.m31,
   A.m31 * B.m12 + A.m32 * B.m22 + A.m33 * B.m32,
   A.m31 * B.m13 + A.m32 * B.m23 + A.m33 * B.m33⟩

def Mat3.add {α : Type} [Field α] (A B : Mat3 α) : Mat3 α :=
  ⟨A.m11 + B.m11, A.m12 + B.m12, A.m13 + B.m13,
   A.m21 + B.m21, A.m22 + B.m22, A.m23 + B.m23,
   A.m31 + B.m31, A.m32 + B.m32, A.m33 + B.m33⟩

def Mat3.smul {α : Type} [Field α] (x : α) (A : Mat3 α) : Mat3 α :=
  ⟨x * A.m11, x * A.m12, x * A.m13,
   x * A.m21, x * A.m22, x * A.m23,
   x * A.m31, x * A.m32, x * A.m33⟩

def Mat3.id3 {α : Type} [Field α] : Mat3 α := ⟨1, 0, 0, 0, 1, 0, 0, 0, 1⟩

def Mat3.det {α : Type} [Field α] (A : Mat3 α) : α :=
  A.m11 * (A.m22 * A.m33 - A.m23 * A.m32)
    - A.m12 * (A.m21 * A.m33 - A.m23 * A.m31)
    + A.m13 * (A.m21 * A.m32 - A.m22 * A.m31)

/-! ## RotationGeometry: decompose_homographies (src/transforms.py, lines 75-111)

The source slices the 3x3 batch into the 2x2 block KR = Hs[:, :2, :2],
the column KRt = -Hs[:, :2, 2:3], the row a_t = Hs[:, 2:3, :2] @ inverse(KR)
and the scalar b = a_t @ KRt + Hs[:, 2:3, 2:3], then concatenates the
pure-homography factor [[I, 0], [a_t, b]] and the affine factor
[[KR, -KRt], [0, 1]].  The float tensors are modelled by an arbitrary field
(rationals in the witnesses, giving the exact-arithmetic reading). -/

def decompose_homographies {α : Type} [Field α] (H : Mat3 α) : Mat3 α × Mat3 α :=
  let KR : Mat2 α := ⟨H.m11, H.m12, H.m21, H.m22⟩
  let KRt1 : α := -H.m13
  let KRt2 : α := -H.m23
  let KRinv := KR.inv
  let at1 : α := H.m31 * KRinv.a + H.m32 * KRinv.c
  let at2 : α := H.m31 * KRinv.b + H.m32 * KRinv.d
  let b : α := at1 * KRt1 + at2 * KRt2 + H.m33
  let pure_homographies : Mat3 α := ⟨1, 0, 0, 0, 1, 0, at1, at2, b⟩
  let affines : Mat3 α := ⟨KR.a, KR.b, -KRt1, KR.c, KR.d, -KRt2, 0, 0, 1⟩
  (pure_homographies, affines)

/-- Determinant of the top-left 2x2 block of a 3x3 matrix. -/
def Mat3.topLeftDet {α : Type} [Field α] (H : Mat3 α) : α :=
  H.m11 * H.m22 - H.m12 * H.m21

/-- C5: for every 3x3 homography whose top-left 2x2 block is invertible,
decompose_homographies returns factors whose product reconstructs the input
exactly (in exact arithmetic, hence within any tolerance), and the affine
factor has a zero bottom-left 1x2 block and unit bottom-right entry. -/
theorem decompose_homographies_reconstructs {α : Type} [Field α] (H : Mat3 α)
    (hdet : H.topLeftDet ≠ 0) :
    (decompose_homographies H).1.mul (decompose_homographies H).2 = H ∧
    (decompose_homographies H).2.m31 = 0 ∧ (decompose_homographies H).2.m32 = 0 ∧
    (decompose_homographies H).2.m33 = 1 := by
  have hd : H.m11 * H.m22 - H.m12 * H.m21 ≠ 0 := hdet
  refine ⟨?_, rfl, rfl, rfl⟩
  simp only [decompose_homographies, Mat3.mul, Mat2.inv, Mat2.det]
  refine Mat3.mk.injEq .. |>.mpr ?_
  refine ⟨by ring, by ring, by ring, by ring, by ring, by ring, ?_, ?_, ?_⟩
  · field_simp
    ring
  · field_simp
    ring
  · field_simp
    ring

/-- Witness for C5: a concrete homography with invertible top-left block. -/
theorem decompose_homographies_reconstructs_witness :
    (decompose_homographies (⟨1, 2, 3, 4, 5, 6, 7, 8, 10⟩ : Mat3 ℚ)).1.mul
        (decompose_homographies (⟨1, 2, 3, 4, 5, 6, 7, 8, 10⟩ : Mat3 ℚ)).2 =
      (⟨1, 2, 3, 4, 5, 6, 7, 8, 10⟩ : Mat3 ℚ) :=
  (decompose_homographies_reconstructs (⟨1, 2, 3, 4, 5, 6, 7, 8, 10⟩ : Mat3 ℚ)
    (by norm_num [Mat3.topLeftDet])).1

/-! ## TiltPhiCoverage: distance_matrix (src/opt_covering.py, lines 60-70)

The batched distance matrix applies one scalar formula to every pair
(t1[i], phi1[i]) x (t2[j], phi2[j]); `distance_matrix_entry` is that scalar
formula, written exactly as in the source line
dist = (t1 / t2 + t2 / t1) * cos(phi1 - phi2) ** 2
       + (t1 * t2 + 1.0 / t2 * t1) * sin(phi1 - phi2) ** 2, then dist / 2.
Note 1.0 / t2 * t1 parses as (1 / t2) * t1. -/

noncomputable def distance_matrix_entry (t1 t2 phi1 phi2 : ℝ) : ℝ :=
  ((t1 / t2 + t2 / t1) * Real.cos (phi1 - phi2) ^ 2 +
    (t1 * t2 + 1 / t2 * t1) * Real.sin (phi1 - phi2) ^ 2) / 2

/-- Distance formula as the specification states it, with the second
coefficient t1*t2 + 1/(t1*t2); used to compare against the code's formula. -/
noncomputable def tilt_phi_distance_spec (t1 t2 phi1 phi2 : ℝ) : ℝ :=
  ((t1 / t2 + t2 / t1) * Real.cos (phi1 - phi2) ^ 2 +
    (t1 * t2 + 1 / (t1 * t2)) * Real.sin (phi1 - phi2) ^ 2) / 2

/-- C4: evaluation of the code's distance at tilts 2, 3 and angles pi/2, 0:
the code yields 10/3 while the claimed metric formula yields 37/12, so the
pairwise distance computed by distance_matrix is not the claimed one (the
source's 1.0 / t2 * t1 is t1/t2 by precedence, not 1/(t1*t2)). -/
theorem distance_matrix_formula_mismatch :
    distance_matrix_entry 2 3 (Real.pi / 2) 0 = 10 / 3 ∧
    tilt_phi_distance_spec 2 3 (Real.pi / 2) 0 = 37 / 12 ∧
    distance_matrix_entry 2 3 (Real.pi / 2) 0 ≠
      tilt_phi_distance_spec 2 3 (Real.pi / 2) 0 := by
  have hc : Real.cos (Real.pi / 2 - 0) = 0 := by rw [sub_zero, Real.cos_pi_div_two]
  have hs : Real.sin (Real.pi / 2 - 0) = 1 := by rw [sub_zero, Real.sin_pi_div_two]
  refine ⟨?_, ?_, ?_⟩ <;>
    simp only [distance_matrix_entry, tilt_phi_distance_spec, hc, hs] <;>
    norm_num

/-! ## RotationGeometry: get_rectification_rotations
(src/transforms.py, lines 4-72)

Normals are 3-vectors; the batch maps each normal independently.  The source
negates the normals, asserts all negated z-components are positive (the
backfacing-normal failure), builds the rotation axis as cross(z, normal)
normalized, the angle as asin of the axis norm, and the rotation by the
Rodrigues formula R = I + sin(theta) K + (1 - cos(theta)) K^2.  The division
of the zero cross product by its zero norm (normal parallel to z) is the
0/0 = 0 junk-value convention of the real-valued model. -/

structure Vec3 where
  x : ℝ
  y : ℝ
  z : ℝ

def Vec3.neg (v : Vec3) : Vec3 := ⟨-v.x, -v.y, -v.z⟩

def Vec3.cross (u v : Vec3) : Vec3 :=
  ⟨u.y * v.z - u.z * v.y, u.z * v.x - u.x * v.z, u.x * v.y - u.y * v.x⟩

noncomputable def Vec3.norm (v : Vec3) : ℝ :=
  Real.sqrt (v.x ^ 2 + v.y ^ 2 + v.z ^ 2)

/-- Rodrigues formula of get_rotation_matrices_torch: K is the skew matrix of
the (unit) rotation vector and R = I + sin(ang) K + (1 - cos(ang)) K K. -/
noncomputable def get_rotation_matrices_torch (u : Vec3) (ang : ℝ) : Mat3 ℝ :=
  let K : Mat3 ℝ := ⟨0, -u.z, u.y, u.z, 0, -u.x, -u.y, u.x, 0⟩
  Mat3.id3.add ((Mat3.smul (Real.sin ang) K).add
    (Mat3.smul (1 - Real.cos ang) (K.mul K)))

inductive RectifyError where
  | backfacingNormal
  deriving DecidableEq

open Classical in
/-- get_rectification_rotations: negate the normals, fail on any non-positive
negated z-component, otherwise build the Rodrigues rotation towards z for
each normal.  The det sanity asserts of check_R are shown never to fire
(the determinant is exactly 1 in the real model). -/
noncomputable def get_rectification_rotations (normals : List Vec3) :
    Except RectifyError (List (Mat3 ℝ)) :=
  let negd := normals.map Vec3.neg
  if ∀ n ∈ negd, 0 < n.z then
    Except.ok (negd.map (fun n =>
      let rv := Vec3.cross ⟨0, 0, 1⟩ n
      let nrm := rv.norm
      let u : Vec3 := ⟨rv.x / nrm, rv.y / nrm, rv.z / nrm⟩
      get_rotation_matrices_torch u (Real.arcsin nrm)))
  else
    Except.error RectifyError.backfacingNormal

lemma det_get_rotation_matrices_torch (u : Vec3) (ang : ℝ) :
    (get_rotation_matrices_torch u ang).det =
      (1 - (1 - Real.cos ang) * (u.x ^ 2 + u.y ^ 2 + u.z ^ 2)) ^ 2 +
        Real.sin ang ^ 2 * (u.x ^ 2 + u.y ^ 2 + u.z ^ 2) := by
  simp only [get_rotation_matrices_torch, Mat3.det, Mat3.add, Mat3.smul,
    Mat3.mul, Mat3.id3]
  ring

lemma det_rodrigues_eq_one (u : Vec3) (ang : ℝ)
    (h : u.x ^ 2 + u.y ^ 2 + u.z ^ 2 = 1 ∨ u.x ^ 2 + u.y ^ 2 + u.z ^ 2 = 0) :
    (get_rotation_matrices_torch u ang).det = 1 := by
  rw [det_get_rotation_matrices_torch]
  rcases h with h | h <;> rw [h]
  · have hsc := Real.sin_sq_add_cos_sq ang
    ring_nf
    nlinarith [hsc]
  · ring

lemma unitized_sq_sum (rv : Vec3) :
    (rv.x / rv.norm) ^ 2 + (rv.y / rv.norm) ^ 2 + (rv.z / rv.norm) ^ 2 = 1 ∨
    (rv.x / rv.norm) ^ 2 + (rv.y / rv.norm) ^ 2 + (rv.z / rv.norm) ^ 2 = 0 := by
  by_cases h : rv.x ^ 2 + rv.y ^ 2 + rv.z ^ 2 = 0
  · right
    have hx : rv.x = 0 := by nlinarith [sq_nonneg rv.x, sq_nonneg rv.y, sq_nonneg rv.z]
    have hy : rv.y = 0 := by nlinarith [sq_nonneg rv.x, sq_nonneg rv.y, sq_nonneg rv.z]
    have hz : rv.z = 0 := by nlinarith [sq_nonneg rv.x, sq_nonneg rv.y, sq_nonneg rv.z]
    rw [hx, hy, hz]
    norm_num
  · left
    have hnn : 0 ≤ rv.x ^ 2 + rv.y ^ 2 + rv.z ^ 2 := by positivity
    have hnorm : rv.norm ^ 2 = rv.x ^ 2 + rv.y ^ 2 + rv.z ^ 2 := Real.sq_sqrt hnn
    have hne : rv.norm ≠ 0 := by
      intro h0
      rw [h0] at hnorm
      exact h (by linarith [hnorm])
    field_simp
    linarith [hnorm]

/-- C3: whenever get_rectification_rotations succeeds (every negated normal
has positive z-component) each returned rotation matrix R has
det(R) - 1 strictly within 1e-5 (it is exactly 1 in exact arithmetic); and
whenever some negated normal has non-positive z-component, the call fails
with the backfacing-normal error instead of returning rotations. -/
theorem get_rectification_rotations_det_and_error :
    (∀ (normals : List Vec3) (Rs : List (Mat3 ℝ)),
        get_rectification_rotations normals = Except.ok Rs →
        ∀ R ∈ Rs, |Mat3.det R - 1| < 1 / 100000) ∧
    (∀ normals : List Vec3, (∃ n ∈ normals, ¬ 0 < (Vec3.neg n).z) →
        get_rectification_rotations normals =
          Except.error RectifyError.backfacingNormal) := by
  constructor
  · intro normals Rs hok R hR
    simp only [get_rectification_rotations] at hok
    split at hok
    · have hRs : Rs = (normals.map Vec3.neg).map (fun n =>
          let rv := Vec3.cross ⟨0, 0, 1⟩ n
          let nrm := rv.norm
          let u : Vec3 := ⟨rv.x / nrm, rv.y / nrm, rv.z / nrm⟩
          get_rotation_matrices_torch u (Real.arcsin nrm)) := by
        injection hok with h
        exact h.symm
      subst hRs
      obtain ⟨n, _, rfl⟩ := List.mem_map.mp hR
      have hdet := det_rodrigues_eq_one
        ⟨(Vec3.cross ⟨0, 0, 1⟩ n).x / (Vec3.cross ⟨0, 0, 1⟩ n).norm,
         (Vec3.cross ⟨0, 0, 1⟩ n).y / (Vec3.cross ⟨0, 0, 1⟩ n).norm,
         (Vec3.cross ⟨0, 0, 1⟩ n).z / (Vec3.cross ⟨0, 0, 1⟩ n).norm⟩
        (Real.arcsin (Vec3.cross ⟨0, 0, 1⟩ n).norm)
        (unitized_sq_sum (Vec3.cross ⟨0, 0, 1⟩ n))
      simp only at hdet ⊢
      rw [hdet]
      norm_num
    · exact absurd hok (by simp)
  · intro normals ⟨n, hn, hnz⟩
    unfold get_rectification_rotations
    rw [if_neg]
    intro hall
    exact hnz (hall (Vec3.neg n) (List.mem_map.mpr ⟨n, hn, rfl⟩))

lemma get_rectification_rotations_single_ok :
    get_rectification_rotations [⟨0, 0, -1⟩] = Except.ok [Mat3.id3] := by
  unfold get_rectification_rotations
  rw [if_pos]
  · have hc : Vec3.cross ⟨0, 0, 1⟩ (Vec3.neg ⟨0, 0, -1⟩) = ⟨0, 0, 0⟩ := by
      simp [Vec3.cross, Vec3.neg]
    simp only [List.map, hc]
    have hn : Vec3.norm ⟨0, 0, 0⟩ = 0 := by
      simp [Vec3.norm]
    rw [hn]
    simp only [get_rotation_matrices_torch, Mat3.id3, Mat3.add, Mat3.smul, Mat3.mul]
    norm_num
  · intro n hn
    simp only [List.map, List.mem_singleton] at hn
    subst hn
    norm_num [Vec3.neg]

/-- Witness for C3: a front-facing normal yields a determinant-1 rotation,
and a backfacing normal (negating to z-component -1) yields the error. -/
theorem get_rectification_rotations_det_and_error_witness :
    |Mat3.det (Mat3.id3 (α := ℝ)) - 1| < 1 / 100000 ∧
    get_rectification_rotations [⟨0, 0, 1⟩] =
      Except.error RectifyError.backfacingNormal :=
  ⟨get_rectification_rotations_det_and_error.1 [⟨0, 0, -1⟩] [Mat3.id3]
      get_rectification_rotations_single_ok Mat3.id3 (by simp),
   get_rectification_rotations_det_and_error.2 [⟨0, 0, 1⟩]
      ⟨⟨0, 0, 1⟩, by simp, by norm_num [Vec3.neg]⟩⟩

/-! ## LinearMapCodec (src/affnet.py, lines 302-430)

compose_lin_maps builds lambda * R(psi) @ diag(t, 1) @ R(phi).
decompose_lin_maps inverts its input, runs the external torch.svd on the
inverse, and then post-processes the factors U, s, V; the embedding
`decompose_lin_maps_post_svd` is that post-processing, taking the factors
delivered by torch.svd for inverse(input) as arguments (torch.svd returns
U diag(s) V^T with non-negative singular values in descending order; the
theorems carry or exhibit exactly these facts about the factors).  Python
asserts are modelled as Option-failure; torch.allclose(x, y, atol) is
|x - y| <= atol + rtol * |y| with the default rtol = 1e-5. -/

noncomputable def rotM (ang : ℝ) : Mat2 ℝ :=
  ⟨Real.cos ang, -Real.sin ang, Real.sin ang, Real.cos ang⟩

noncomputable def compose_lin_maps (ts phis lambdas psis : ℝ) : Mat2 ℝ :=
  Mat2.smul lambdas ((rotM psis).mul ((Mat2.diagM ts 1).mul (rotM phis)))

open Classical in
/-- torch.sgn on a real scalar. -/
noncomputable def sgnR (x : ℝ) : ℝ :=
  if x < 0 then -1 else if x = 0 then 0 else 1

/-- torch.clamp(x, -1.0, 1.0). -/
noncomputable def clampR (x : ℝ) : ℝ := min (max x (-1)) 1

/-- torch.allclose(x, y, atol) on scalars, with the default rtol = 1e-5. -/
def tclose (x y atol : ℝ) : Prop := |x - y| ≤ atol + 1 / 10 ^ 5 * |y|

structure LinDecomp where
  lambdas : ℝ
  psis : ℝ
  ts : ℝ
  phis : ℝ

/-- Line 369-374 of affnet.py acting on the singular values: after scaling by
the sign factor, the first singular value divided by the second. -/
noncomputable def svd_sign_normalized_tilt (s1 s2 : ℝ) : ℝ :=
  (sgnR s1 * s1) / (sgnR s1 * s2)

/-- The second singular value after the same normalization (divided by itself). -/
noncomputable def svd_sign_normalized_second (s1 s2 : ℝ) : ℝ :=
  (sgnR s1 * s2) / (sgnR s1 * s2)

open Classical in
/-- The swap_rows step of decompose_lin_maps: torch.where(dets_v < 0, ...)
swaps the two rows exactly when the det of (the transposed) V is negative. -/
noncomputable def swapIfNegDet (dv : ℝ) (A : Mat2 ℝ) : Mat2 ℝ :=
  if dv < 0 then A.swapRows else A

open Classical in
/-- phi_norm_factor = torch.where(V[:, :, :1, 1:] > 0, -1.0, 1.0). -/
noncomputable def phiNormFactor (b : ℝ) : ℝ :=
  if 0 < b then (-1 : ℝ) else 1

open Classical in
/-- decompose_lin_maps after the torch.svd call: U0, (s1, s2), V0 are the
factors torch.svd produced for the inverted input map.  V is transposed,
signs are normalized, the singular values rescaled so the second is 1,
U and V rows are swapped when det V < 0, the phi sign ambiguity is fixed,
and phi, psi are read off via arccos / arcsin; every Python assert becomes
an Option-failure branch. -/
noncomputable def decompose_lin_maps_post_svd (U0 : Mat2 ℝ) (s1 s2 : ℝ)
    (V0 : Mat2 ℝ) : Option LinDecomp :=
  let V1 := V0.transpose
  if sgnR s1 = sgnR s2 ∧ s1 ≠ 0 then
    let U1 := Mat2.smul (sgnR s1) U0
    let lambdas := sgnR s1 * s2
    let ts0 := svd_sign_normalized_tilt s1 s2
    let s2n := svd_sign_normalized_second s1 s2
    if 1 ≤ ts0 ∧ s2n = 1 then
      if tclose V1.det U1.det (1 / 10 ^ 7) ∧ tclose |V1.det| 1 (1 / 10 ^ 7) then
        let Uw := swapIfNegDet V1.det U1
        let Vw := swapIfNegDet V1.det V1
        if tclose Vw.det Uw.det (1 / 10 ^ 7) ∧ tclose Vw.det 1 (1 / 10 ^ 7) then
          let g := phiNormFactor Vw.b
          let Vn := Mat2.smul g Vw
          let Un := Mat2.smul g Uw
          let phis := Real.arccos (clampR Vn.a)
          if tclose (Real.sin phis) (-Vn.b) (1 / 10 ^ 3) ∧
              tclose (Real.sin phis) Vn.c (1 / 10 ^ 3) ∧
              tclose Vn.d Vn.a (1 / 10 ^ 5) then
            let psis := Real.arcsin (-(clampR Un.b))
            if tclose (Real.sin psis) (-Un.b) (1 / 10 ^ 3) ∧
                tclose (Real.sin psis) Un.c (1 / 10 ^ 3) ∧
                tclose Un.d Un.a (1 / 10 ^ 5) then
              some ⟨lambdas, psis, ts0, phis⟩
            else none
          else none
        else none
      else none
    else none
  else none

lemma sgnR_of_pos {x : ℝ} (hx : 0 < x) : sgnR x = 1 := by
  simp only [sgnR, if_neg (not_lt.mpr hx.le), if_neg hx.ne.symm]

lemma tclose_self (x atol : ℝ) (h : 0 ≤ atol) : tclose x x atol := by
  simp only [tclose, sub_self, abs_zero]
  positivity

lemma Mat2.smul_one (A : Mat2 ℝ) : Mat2.smul 1 A = A := by
  cases A
  simp [Mat2.smul]

lemma ite5_eq_some {β : Type} {c1 c2 c3 c4 c5 : Prop}
    {i1 : Decidable c1} {i2 : Decidable c2} {i3 : Decidable c3}
    {i4 : Decidable c4} {i5 : Decidable c5} {x r : β}
    (h : @ite (Option β) c1 i1 (@ite (Option β) c2 i2 (@ite (Option β) c3 i3
        (@ite (Option β) c4 i4 (@ite (Option β) c5 i5 (some x) none)
          none) none) none) none = some r) :
    r = x := by
  by_cases h1 : c1
  · rw [if_pos h1] at h
    by_cases h2 : c2
    · rw [if_pos h2] at h
      by_cases h3 : c3
      · rw [if_pos h3] at h
        by_cases h4 : c4
        · rw [if_pos h4] at h
          by_cases h5 : c5
          · rw [if_pos h5] at h
            injection h with h'
            exact h'.symm
          · rw [if_neg h5] at h
            exact Option.noConfusion h
        · rw [if_neg h4] at h
          exact Option.noConfusion h
      · rw [if_neg h3] at h
        exact Option.noConfusion h
    · rw [if_neg h2] at h
      exact Option.noConfusion h
  · rw [if_neg h1] at h
    exact Option.noConfusion h

/-- C2: for singular values as delivered by torch.svd (descending, second one
non-negative) that pass the acceptance asserts of decompose_lin_maps (equal
signs and nonzero leading value), the sign-normalized singular values satisfy
tilt >= 1 with the second exactly 1, and any successful decomposition returns
exactly that tilt as its t. -/
theorem decompose_lin_maps_tilt_invariant (s1 s2 : ℝ)
    (hdesc : s2 ≤ s1) (hnn : 0 ≤ s2) (hsgn : sgnR s1 = sgnR s2) (hnz : s1 ≠ 0) :
    1 ≤ svd_sign_normalized_tilt s1 s2 ∧
    svd_sign_normalized_second s1 s2 = 1 ∧
    ∀ (U0 V0 : Mat2 ℝ) (r : LinDecomp),
      decompose_lin_maps_post_svd U0 s1 s2 V0 = some r →
      r.ts = svd_sign_normalized_tilt s1 s2 ∧ 1 ≤ r.ts := by
  have hs1 : 0 < s1 := lt_of_le_of_ne (le_trans hnn hdesc) (Ne.symm hnz)
  have hg1 : sgnR s1 = 1 := sgnR_of_pos hs1
  have hs2 : 0 < s2 := by
    rcases lt_or_eq_of_le hnn with h | h
    · exact h
    · exfalso
      rw [hg1] at hsgn
      have h0 : sgnR s2 = 0 := by simp [sgnR, ← h]
      rw [h0] at hsgn
      norm_num at hsgn
  have htilt : svd_sign_normalized_tilt s1 s2 = s1 / s2 := by
    rw [svd_sign_normalized_tilt, hg1, one_mul, one_mul]
  have h1 : 1 ≤ svd_sign_normalized_tilt s1 s2 := by
    rw [htilt]
    exact (one_le_div hs2).mpr hdesc
  refine ⟨h1, ?_, ?_⟩
  · rw [svd_sign_normalized_second, hg1, one_mul, div_self hs2.ne.symm]
  · intro U0 V0 r hr
    simp only [decompose_lin_maps_post_svd] at hr
    rw [if_pos ⟨hsgn, hnz⟩] at hr
    obtain rfl := ite5_eq_some hr
    exact ⟨rfl, h1⟩

/-- Witness for C2 at singular values (2, 1). -/
theorem decompose_lin_maps_tilt_invariant_witness :
    1 ≤ svd_sign_normalized_tilt 2 1 ∧ svd_sign_normalized_second 2 1 = 1 :=
  ⟨(decompose_lin_maps_tilt_invariant 2 1 (by norm_num) (by norm_num)
      (by rw [sgnR_of_pos (by norm_num : (0:ℝ) < 2),
              sgnR_of_pos (by norm_num : (0:ℝ) < 1)])
      (by norm_num)).1,
   (decompose_lin_maps_tilt_invariant 2 1 (by norm_num) (by norm_num)
      (by rw [sgnR_of_pos (by norm_num : (0:ℝ) < 2),
              sgnR_of_pos (by norm_num : (0:ℝ) < 1)])
      (by norm_num)).2.1⟩

lemma rotM_det (ang : ℝ) : (rotM ang).det = 1 := by
  simp only [rotM, Mat2.det]
  linear_combination Real.sin_sq_add_cos_sq ang

lemma rotM_transpose_neg (phi : ℝ) : (rotM (-phi)).transpose = rotM phi := by
  simp [rotM, Mat2.transpose, Real.cos_neg, Real.sin_neg]

lemma rotM_orthogonal (ang : ℝ) : (rotM ang).transpose.mul (rotM ang) = Mat2.id2 := by
  simp only [rotM, Mat2.transpose, Mat2.mul, Mat2.id2]
  refine Mat2.mk.injEq .. |>.mpr ⟨?_, by ring, by ring, ?_⟩ <;>
    linear_combination Real.sin_sq_add_cos_sq ang

lemma swapIfNegDet_of_det_one (A : Mat2 ℝ) : swapIfNegDet 1 A = A := by
  rw [swapIfNegDet, if_neg (by norm_num : ¬ (1 : ℝ) < 0)]

/-- C1 (amended): the codec round-trips through the inverse.  For every valid
parameter tuple (lambda > 0, psi in (-pi/2, pi/2], t >= 1, phi in [0, pi)),
the factors (R(psi), diag(lambda t, lambda), R(-phi)) form a singular value
decomposition of compose_lin_maps(t, phi, lambda, psi) itself — orthogonal
factors, non-negative descending singular values — i.e. an SVD of the
inverse of the map decompose_lin_maps would invert; feeding them to the
post-SVD pipeline of decompose_lin_maps reproduces (lambda, psi, t, phi)
exactly.  (Applying decompose directly to compose's output instead swaps and
negates the two angles; see the counterexample.) -/
theorem decompose_of_inverse_compose_roundtrip
    (lam psi t phi : ℝ) (hlam : 0 < lam) (hpsi1 : -(Real.pi / 2) < psi)
    (hpsi2 : psi ≤ Real.pi / 2) (ht : 1 ≤ t) (hphi1 : 0 ≤ phi)
    (hphi2 : phi < Real.pi) :
    (rotM psi).mul ((Mat2.diagM (lam * t) lam).mul ((rotM (-phi)).transpose)) =
      compose_lin_maps t phi lam psi ∧
    (rotM psi).transpose.mul (rotM psi) = Mat2.id2 ∧
    (rotM (-phi)).transpose.mul (rotM (-phi)) = Mat2.id2 ∧
    lam ≤ lam * t ∧ 0 ≤ lam ∧
    decompose_lin_maps_post_svd (rotM psi) (lam * t) lam (rotM (-phi)) =
      some ⟨lam, psi, t, phi⟩ := by
  have hlt : 0 < lam * t := mul_pos hlam (lt_of_lt_of_le one_pos ht)
  have hg1 : sgnR (lam * t) = 1 := sgnR_of_pos hlt
  have hg2 : sgnR lam = 1 := sgnR_of_pos hlam
  have hsin : 0 ≤ Real.sin phi :=
    Real.sin_nonneg_of_nonneg_of_le_pi hphi1 hphi2.le
  refine ⟨?_, rotM_orthogonal psi, rotM_orthogonal (-phi),
    le_mul_of_one_le_right hlam.le ht, hlam.le, ?_⟩
  · rw [rotM_transpose_neg]
    simp only [rotM, Mat2.mul, Mat2.diagM, Mat2.smul, compose_lin_maps]
    refine Mat2.mk.injEq .. |>.mpr ⟨by ring, by ring, by ring, by ring⟩
  · have hts : svd_sign_normalized_tilt (lam * t) lam = t := by
      rw [svd_sign_normalized_tilt, hg1, one_mul, one_mul, mul_comm,
        mul_div_assoc, div_self hlam.ne.symm, mul_one]
    have hsnd : svd_sign_normalized_second (lam * t) lam = 1 := by
      rw [svd_sign_normalized_second, hg1, one_mul, div_self hlam.ne.symm]
    have e2 : Mat2.smul (sgnR (lam * t)) (rotM psi) = rotM psi := by
      rw [hg1, Mat2.smul_one]
    have e8 : phiNormFactor (rotM phi).b = 1 := by
      rw [phiNormFactor, if_neg]
      show ¬ 0 < -Real.sin phi
      simp [hsin]
    have e9 : clampR (rotM phi).a = Real.cos phi := by
      show clampR (Real.cos phi) = Real.cos phi
      rw [clampR, max_eq_left (Real.neg_one_le_cos phi),
        min_eq_left (Real.cos_le_one phi)]
    have e11 : clampR (rotM psi).b = -Real.sin psi := by
      show clampR (-Real.sin psi) = -Real.sin psi
      rw [clampR, max_eq_left (by linarith [Real.sin_le_one psi]),
        min_eq_left (by linarith [Real.neg_one_le_sin psi])]
    simp only [decompose_lin_maps_post_svd]
    rw [if_pos ⟨by rw [hg1, hg2], hlt.ne.symm⟩]
    rw [rotM_transpose_neg, e2, hts, hsnd]
    rw [if_pos ⟨ht, rfl⟩]
    rw [rotM_det phi, rotM_det psi]
    rw [if_pos ⟨tclose_self 1 _ (by norm_num),
      by rw [abs_one]; exact tclose_self 1 _ (by norm_num)⟩]
    rw [swapIfNegDet_of_det_one, swapIfNegDet_of_det_one]
    rw [rotM_det phi, rotM_det psi]
    rw [if_pos ⟨tclose_self 1 _ (by norm_num), tclose_self 1 _ (by norm_num)⟩]
    rw [e8, Mat2.smul_one, Mat2.smul_one]
    rw [e9, Real.arccos_cos hphi1 hphi2.le]
    have hv1 : tclose (Real.sin phi) (-(rotM phi).b) (1 / 10 ^ 3) := by
      show tclose (Real.sin phi) (-(-Real.sin phi)) (1 / 10 ^ 3)
      rw [neg_neg]
      exact tclose_self _ _ (by norm_num)
    have hv2 : tclose (Real.sin phi) ((rotM phi).c) (1 / 10 ^ 3) := by
      show tclose (Real.sin phi) (Real.sin phi) (1 / 10 ^ 3)
      exact tclose_self _ _ (by norm_num)
    have hv3 : tclose ((rotM phi).d) ((rotM phi).a) (1 / 10 ^ 5) := by
      show tclose (Real.cos phi) (Real.cos phi) (1 / 10 ^ 5)
      exact tclose_self _ _ (by norm_num)
    rw [if_pos ⟨hv1, hv2, hv3⟩]
    rw [e11, neg_neg, Real.arcsin_sin hpsi1.le hpsi2]
    have hu1 : tclose (Real.sin psi) (-(rotM psi).b) (1 / 10 ^ 3) := by
      show tclose (Real.sin psi) (-(-Real.sin psi)) (1 / 10 ^ 3)
      rw [neg_neg]
      exact tclose_self _ _ (by norm_num)
    have hu2 : tclose (Real.sin psi) ((rotM psi).c) (1 / 10 ^ 3) := by
      show tclose (Real.sin psi) (Real.sin psi) (1 / 10 ^ 3)
      exact tclose_self _ _ (by norm_num)
    have hu3 : tclose ((rotM psi).d) ((rotM psi).a) (1 / 10 ^ 5) := by
      show tclose (Real.cos psi) (Real.cos psi) (1 / 10 ^ 5)
      exact tclose_self _ _ (by norm_num)
    rw [if_pos ⟨hu1, hu2, hu3⟩]
    rw [hg1, one_mul]

/-- Witness for the amended C1 at (lambda, psi, t, phi) = (1, 0, 2, 0). -/
theorem decompose_of_inverse_compose_roundtrip_witness :
    decompose_lin_maps_post_svd (rotM 0) (1 * 2) 1 (rotM (-0)) =
      some ⟨1, 0, 2, 0⟩ :=
  (decompose_of_inverse_compose_roundtrip 1 0 2 0 (by norm_num)
    (by linarith [Real.pi_pos]) (by positivity) (by norm_num) le_rfl
    Real.pi_pos).2.2.2.2.2

/-- Left SVD factor of the inverse of compose_lin_maps(2, pi/4, sqrt(2)/2, 0);
used only by the counterexample to the stated round-trip. -/
noncomputable def svdU_example : Mat2 ℝ :=
  ⟨Real.sqrt 2 / 2, Real.sqrt 2 / 2, Real.sqrt 2 / 2, -(Real.sqrt 2 / 2)⟩

/-- Right SVD factor (V, untransposed) of the same inverse map. -/
def svdV_example : Mat2 ℝ := ⟨0, 1, 1, 0⟩

/-- C1 counterexample: for the valid parameters lambda = sqrt(2)/2, psi = 0,
t = 2, phi = pi/4, the exhibited factors form a genuine SVD of the inverse of
compose_lin_maps(2, pi/4, sqrt(2)/2, 0) (the matrix torch.svd factorizes
inside decompose_lin_maps): the product reconstructs that inverse, both
factors are orthogonal, and the singular values (sqrt 2, sqrt 2 / 2) are
non-negative and descending.  Decomposing returns psi' = pi/4 and phi' = 0,
so phi is off by pi/4 > 1e-4 and psi is off by pi/4 > 1e-4: the round-trip
claim fails (decompose decomposes the inverse, exchanging the roles of the
two angles). -/
theorem compose_then_decompose_swaps_angles :
    svdU_example.mul ((Mat2.diagM (Real.sqrt 2) (Real.sqrt 2 / 2)).mul
        svdV_example.transpose) =
      Mat2.inv (compose_lin_maps 2 (Real.pi / 4) (Real.sqrt 2 / 2) 0) ∧
    svdU_example.transpose.mul svdU_example = Mat2.id2 ∧
    svdV_example.transpose.mul svdV_example = Mat2.id2 ∧
    Real.sqrt 2 / 2 ≤ Real.sqrt 2 ∧ 0 ≤ Real.sqrt 2 / 2 ∧
    decompose_lin_maps_post_svd svdU_example (Real.sqrt 2) (Real.sqrt 2 / 2)
        svdV_example = some ⟨Real.sqrt 2 / 2, Real.pi / 4, 2, 0⟩ ∧
    1 / 10 ^ 4 < |(0 : ℝ) - Real.pi / 4| ∧
    1 / 10 ^ 4 < |Real.pi / 4 - (0 : ℝ)| := by
  have hs : Real.sqrt 2 * Real.sqrt 2 = 2 :=
    Real.mul_self_sqrt (by norm_num : (0 : ℝ) ≤ 2)
  have hpos : 0 < Real.sqrt 2 := Real.sqrt_pos.mpr (by norm_num)
  have hle2 : Real.sqrt 2 ≤ 2 := by nlinarith [hs, hpos]
  have hpi := Real.pi_gt_three
  constructor
  · have hM : compose_lin_maps 2 (Real.pi / 4) (Real.sqrt 2 / 2) 0 =
        ⟨1, -1, 1 / 2, 1 / 2⟩ := by
      simp only [compose_lin_maps, rotM, Mat2.mul, Mat2.diagM, Mat2.smul,
        Real.cos_pi_div_four, Real.sin_pi_div_four, Real.cos_zero,
        Real.sin_zero]
      refine Mat2.mk.injEq .. |>.mpr ⟨?_, ?_, ?_, ?_⟩
      · linear_combination (1 / 2) * hs
      · linear_combination (-(1 / 2)) * hs
      · linear_combination (1 / 4) * hs
      · linear_combination (1 / 4) * hs
    have hInv : Mat2.inv (⟨1, -1, 1 / 2, 1 / 2⟩ : Mat2 ℝ) =
        ⟨1 / 2, 1, -(1 / 2), 1⟩ := by
      simp only [Mat2.inv, Mat2.det]
      norm_num
    rw [hM, hInv]
    simp only [svdU_example, svdV_example, Mat2.mul, Mat2.diagM, Mat2.transpose]
    refine Mat2.mk.injEq .. |>.mpr ⟨?_, ?_, ?_, ?_⟩
    · linear_combination (1 / 4) * hs
    · linear_combination (1 / 2) * hs
    · linear_combination (-(1 / 4)) * hs
    · linear_combination (1 / 2) * hs
  refine ⟨?_, ?_, by linarith, by positivity, ?_, ?_, ?_⟩
  · simp only [svdU_example, Mat2.transpose, Mat2.mul, Mat2.id2]
    refine Mat2.mk.injEq .. |>.mpr ⟨?_, by ring, by ring, ?_⟩
    · linear_combination (1 / 2) * hs
    · linear_combination (1 / 2) * hs
  · simp only [svdV_example, Mat2.transpose, Mat2.mul, Mat2.id2]
    refine Mat2.mk.injEq .. |>.mpr ⟨by ring, by ring, by ring, by ring⟩
  · have hg : sgnR (Real.sqrt 2) = 1 := sgnR_of_pos hpos
    have hg2 : sgnR (Real.sqrt 2 / 2) = 1 := sgnR_of_pos (by positivity)
    have hts : svd_sign_normalized_tilt (Real.sqrt 2) (Real.sqrt 2 / 2) = 2 := by
      rw [svd_sign_normalized_tilt, hg, one_mul, one_mul,
        div_eq_iff (by positivity : (Real.sqrt 2 / 2 : ℝ) ≠ 0)]
      ring
    have hsnd : svd_sign_normalized_second (Real.sqrt 2) (Real.sqrt 2 / 2) = 1 := by
      rw [svd_sign_normalized_second, hg, one_mul,
        div_self (by positivity : (Real.sqrt 2 / 2 : ℝ) ≠ 0)]
    have hV1 : svdV_example.transpose = svdV_example := rfl
    have hU1 : Mat2.smul (sgnR (Real.sqrt 2)) svdU_example = svdU_example := by
      rw [hg, Mat2.smul_one]
    have hdV : svdV_example.det = -1 := by
      norm_num [svdV_example, Mat2.det]
    have hdU : svdU_example.det = -1 := by
      simp only [svdU_example, Mat2.det]
      linear_combination (-(1 / 2)) * hs
    have hsw : ∀ A : Mat2 ℝ, swapIfNegDet (-1) A = A.swapRows := fun A => by
      rw [swapIfNegDet, if_pos (by norm_num : (-1 : ℝ) < 0)]
    have hdUw : svdU_example.swapRows.det = 1 := by
      simp only [svdU_example, Mat2.swapRows, Mat2.det]
      linear_combination (1 / 2) * hs
    have hdVw : svdV_example.swapRows.det = 1 := by
      norm_num [svdV_example, Mat2.swapRows, Mat2.det]
    simp only [decompose_lin_maps_post_svd]
    rw [if_pos ⟨by rw [hg, hg2], hpos.ne.symm⟩]
    rw [hV1, hU1, hts, hsnd]
    rw [if_pos ⟨by norm_num, rfl⟩]
    rw [hdV, hdU]
    rw [if_pos ⟨tclose_self _ _ (by norm_num),
      by rw [abs_neg, abs_one]; exact tclose_self _ _ (by norm_num)⟩]
    rw [hsw, hsw, hdUw, hdVw]
    rw [if_pos ⟨tclose_self _ _ (by norm_num), tclose_self _ _ (by norm_num)⟩]
    have hpf : phiNormFactor svdV_example.swapRows.b = 1 := by
      rw [phiNormFactor, if_neg]
      show ¬ (0 : ℝ) < 0
      norm_num
    rw [hpf, Mat2.smul_one, Mat2.smul_one]
    have hca : clampR svdV_example.swapRows.a = 1 := by
      show clampR 1 = 1
      rw [clampR]
      norm_num
    rw [hca, Real.arccos_one]
    have hc5a : tclose (Real.sin 0) (-svdV_example.swapRows.b) (1 / 10 ^ 3) := by
      show tclose (Real.sin 0) (-(0 : ℝ)) (1 / 10 ^ 3)
      rw [Real.sin_zero, neg_zero]
      exact tclose_self _ _ (by norm_num)
    have hc5b : tclose (Real.sin 0) svdV_example.swapRows.c (1 / 10 ^ 3) := by
      show tclose (Real.sin 0) (0 : ℝ) (1 / 10 ^ 3)
      rw [Real.sin_zero]
      exact tclose_self _ _ (by norm_num)
    have hc5c : tclose svdV_example.swapRows.d svdV_example.swapRows.a
        (1 / 10 ^ 5) := by
      show tclose (1 : ℝ) 1 (1 / 10 ^ 5)
      exact tclose_self _ _ (by norm_num)
    rw [if_pos ⟨hc5a, hc5b, hc5c⟩]
    have hcb : clampR svdU_example.swapRows.b = -(Real.sqrt 2 / 2) := by
      show clampR (-(Real.sqrt 2 / 2)) = -(Real.sqrt 2 / 2)
      rw [clampR, max_eq_left (by linarith), min_eq_left (by linarith)]
    rw [hcb, neg_neg]
    have harcsin : Real.arcsin (Real.sqrt 2 / 2) = Real.pi / 4 := by
      rw [← Real.sin_pi_div_four]
      exact Real.arcsin_sin (by linarith) (by linarith)
    rw [harcsin]
    have hc6a : tclose (Real.sin (Real.pi / 4)) (-svdU_example.swapRows.b)
        (1 / 10 ^ 3) := by
      show tclose (Real.sin (Real.pi / 4)) (-(-(Real.sqrt 2 / 2))) (1 / 10 ^ 3)
      rw [neg_neg, Real.sin_pi_div_four]
      exact tclose_self _ _ (by norm_num)
    have hc6b : tclose (Real.sin (Real.pi / 4)) svdU_example.swapRows.c
        (1 / 10 ^ 3) := by
      show tclose (Real.sin (Real.pi / 4)) (Real.sqrt 2 / 2) (1 / 10 ^ 3)
      rw [Real.sin_pi_div_four]
      exact tclose_self _ _ (by norm_num)
    have hc6c : tclose svdU_example.swapRows.d svdU_example.swapRows.a
        (1 / 10 ^ 5) := by
      show tclose (Real.sqrt 2 / 2) (Real.sqrt 2 / 2) (1 / 10 ^ 5)
      exact tclose_self _ _ (by norm_num)
    rw [if_pos ⟨hc6a, hc6b, hc6c⟩]
    rw [hg, one_mul]
  · rw [zero_sub, abs_neg, abs_of_pos (by linarith)]
    linarith
  · rw [sub_zero, abs_of_pos (by linarith)]
    linarith

/-! ## TiltPhiCoverage: vote (src/opt_covering.py, lines 81-112)

Data points and candidate centers are (tilt, phi) pairs; the point cloud is a
list (one entry per column of the 2 x N tensor).  r is re-bound to log r, the
coverage threshold is rhs = (e^(2r) + 1) / (2 e^r), points with tilt below
e^r are excluded up front, and the while loop (guarded by
rect_fraction < fraction_th and iter_finished < iter_th) repeatedly picks the
center covering the most remaining points, records it and removes its
covered points.  The loop is modelled by recursion on the remaining
iteration budget iter_th - iter_finished; torch.sort(votes)[1][0] is the
first index attaining the maximal vote count; sorting an empty tensor
(no candidate centers) is the crash path, modelled as none. -/

open Classical in
noncomputable def voteCount (rhs : ℝ) (c : ℝ × ℝ) (f : List (ℝ × ℝ)) : ℕ :=
  (f.filter (fun d => decide (distance_matrix_entry c.1 d.1 c.2 d.2 < rhs))).length

open Classical in
noncomputable def argmaxIdx (l : List ℕ) : ℕ :=
  (List.range l.length).foldl (fun b i => if l.getD b 0 < l.getD i 0 then i else b) 0

open Classical in
noncomputable def voteLoop (centers : List (ℝ × ℝ)) (dataLen : ℕ)
    (rhs fraction_th : ℝ) :
    ℕ → List (ℝ × ℝ) → List (ℝ × ℝ) → ℕ → Option (List (ℝ × ℝ) × ℕ)
  | 0, _, winners, iterFin => some (winners, iterFin)
  | n + 1, f, winners, iterFin =>
    if 1 - (f.length : ℝ) / (dataLen : ℝ) < fraction_th then
      if centers = [] then none
      else
        let votes := centers.map (fun c => voteCount rhs c f)
        let wc := centers.getD (argmaxIdx votes) (0, 0)
        let f2 := f.filter
          (fun d => decide (¬ distance_matrix_entry wc.1 d.1 wc.2 d.2 < rhs))
        voteLoop centers dataLen rhs fraction_th n f2 (winners ++ [wc])
          (iterFin + 1)
    else some (winners, iterFin)

open Classical in
/-- vote: exclude the near-identity points, then run the greedy covering loop
with an empty winner list; the second component is the number of loop
iterations executed (the source's iter_finished counter). -/
noncomputable def vote (centers data : List (ℝ × ℝ)) (r fraction_th : ℝ)
    (iter_th : ℕ) : Option (List (ℝ × ℝ) × ℕ) :=
  let rl := Real.log r
  let rhs := (Real.exp (2 * rl) + 1) / (2 * Real.exp rl)
  let filtered := data.filter (fun d => decide (¬ d.1 < Real.exp rl))
  voteLoop centers data.length rhs fraction_th iter_th filtered [] 0

lemma voteLoop_spec (centers : List (ℝ × ℝ)) (dataLen : ℕ) (rhs fth : ℝ)
    (hC : centers ≠ []) :
    ∀ (n : ℕ) (f w : List (ℝ × ℝ)) (i : ℕ),
      ∃ w2 k, voteLoop centers dataLen rhs fth n f w i = some (w ++ w2, k) ∧
        k ≤ i + n ∧
        (n ≠ 0 → 1 - (f.length : ℝ) / (dataLen : ℝ) < fth → w2 ≠ []) := by
  intro n
  induction n with
  | zero =>
    intro f w i
    exact ⟨[], i, by simp [voteLoop], by omega, by simp⟩
  | succ m ih =>
    intro f w i
    by_cases hg : 1 - (f.length : ℝ) / (dataLen : ℝ) < fth
    · have hwc := centers.getD (argmaxIdx (centers.map (fun c => voteCount rhs c f))) (0, 0)
      obtain ⟨w2, k, hrec, hk, _⟩ := ih
        (f.filter (fun d => decide (¬ distance_matrix_entry
          (centers.getD (argmaxIdx (centers.map (fun c => voteCount rhs c f))) (0, 0)).1 d.1
          (centers.getD (argmaxIdx (centers.map (fun c => voteCount rhs c f))) (0, 0)).2 d.2 < rhs)))
        (w ++ [centers.getD (argmaxIdx (centers.map (fun c => voteCount rhs c f))) (0, 0)])
        (i + 1)
      refine ⟨[centers.getD (argmaxIdx (centers.map (fun c => voteCount rhs c f))) (0, 0)] ++ w2,
        k, ?_, by omega, fun _ _ => by simp⟩
      rw [voteLoop, if_pos hg, if_neg hC]
      rw [hrec, List.append_assoc]
    · refine ⟨[], i, ?_, by omega, fun _ hg2 => absurd hg2 hg⟩
      rw [voteLoop, if_neg hg]
      simp

/-- C9: with targetFraction = 1.0, a candidate-center set covering the whole
point cloud (every point within the rhs threshold of some center) and at
least one point outside the identity-exclusion radius (tilt not below e^r),
vote terminates without crashing, executes at most iter_th iterations, and
returns a nonempty list of winning centers (given a nonzero iteration
budget). -/
theorem vote_terminates_and_nonempty
    (centers data : List (ℝ × ℝ)) (r : ℝ) (iter_th : ℕ)
    (hiter : 1 ≤ iter_th)
    (hcover : ∀ d ∈ data, ∃ c ∈ centers,
      distance_matrix_entry c.1 d.1 c.2 d.2 <
        (Real.exp (2 * Real.log r) + 1) / (2 * Real.exp (Real.log r)))
    (hout : ∃ d ∈ data, ¬ d.1 < Real.exp (Real.log r)) :
    ∃ out, vote centers data r 1 iter_th = some out ∧
      out.2 ≤ iter_th ∧ out.1 ≠ [] := by
  obtain ⟨d, hd, hdout⟩ := hout
  obtain ⟨c, hc, -⟩ := hcover d hd
  have hC : centers ≠ [] := fun h => by simp [h] at hc
  have hdf : d ∈ data.filter (fun d => decide (¬ d.1 < Real.exp (Real.log r))) :=
    List.mem_filter.mpr ⟨hd, by simp [hdout]⟩
  have hflen : 1 ≤ (data.filter (fun d => decide (¬ d.1 < Real.exp (Real.log r)))).length :=
    List.length_pos.mpr (fun h => by rw [h] at hdf; simp at hdf)
  have hdlen : 1 ≤ data.length :=
    List.length_pos.mpr (fun h => by rw [h] at hd; simp at hd)
  have hguard : 1 - ((data.filter (fun d => decide (¬ d.1 < Real.exp (Real.log r)))).length : ℝ)
      / (data.length : ℝ) < 1 := by
    have h1 : (0 : ℝ) < ((data.filter (fun d => decide (¬ d.1 < Real.exp (Real.log r)))).length : ℝ) := by
      exact_mod_cast hflen
    have h2 : (0 : ℝ) < (data.length : ℝ) := by exact_mod_cast hdlen
    have := div_pos h1 h2
    linarith
  obtain ⟨w2, k, hrun, hk, hne⟩ := voteLoop_spec centers data.length
    ((Real.exp (2 * Real.log r) + 1) / (2 * Real.exp (Real.log r))) 1 hC
    iter_th (data.filter (fun d => decide (¬ d.1 < Real.exp (Real.log r)))) [] 0
  refine ⟨(w2, k), ?_, by omega, ?_⟩
  · rw [vote]
    simpa using hrun
  · exact hne (by omega) hguard

/-- Witness for C9: a single point (2, 0), a single matching center (2, 0),
radius 1.8 = 9/5, full target fraction and a one-iteration budget. -/
theorem vote_terminates_and_nonempty_witness :
    ∃ out, vote [((2 : ℝ), (0 : ℝ))] [((2 : ℝ), (0 : ℝ))] (9 / 5) 1 1 = some out ∧
      out.2 ≤ 1 ∧ out.1 ≠ [] := by
  have hexp : Real.exp (Real.log (9 / 5)) = 9 / 5 :=
    Real.exp_log (by norm_num)
  refine vote_terminates_and_nonempty [((2 : ℝ), (0 : ℝ))] [((2 : ℝ), (0 : ℝ))]
    (9 / 5) 1 le_rfl ?_ ?_
  · intro d hd
    refine ⟨((2 : ℝ), (0 : ℝ)), by simp, ?_⟩
    simp only [List.mem_singleton] at hd
    subst hd
    rw [two_mul, Real.exp_add, hexp]
    simp only [distance_matrix_entry, sub_self, Real.cos_zero, Real.sin_zero]
    norm_num
  · refine ⟨((2 : ℝ), (0 : ℝ)), by simp, ?_⟩
    rw [hexp]
    norm_num

/-! ## SphericalClusterer: kmeans (src/spherical_kmeans.py, lines 104-179)

The normal grid is flattened to a list of 3-vectors with a parallel boolean
mask (the tensor shape is plumbing only); a cluster center is stored once
(the source broadcasts it over the grid).  Distances are torch.norm of the
difference.  Centres live in Option Vec3: none models an IEEE NaN-poisoned
centre.  The empty-cluster update sum([]) / 0 = 0.0/0 is NaN (none), and a
distance to a NaN centre is NaN (none); torch.min propagates NaN over the
reduced dimension and, per its documentation, returns the index of the first
minimal value otherwise; an IEEE comparison with NaN is false, so the
distance-threshold test sends NaN minima to the sentinel label 3. -/

/-- Module-level tuning constant distance_threshold = 0.6. -/
noncomputable def distance_threshold : ℝ := 3 / 5

noncomputable def dist3 (c v : Vec3) : ℝ :=
  Real.sqrt ((c.x - v.x) ^ 2 + (c.y - v.y) ^ 2 + (c.z - v.z) ^ 2)

noncomputable def distOpt (c : Option Vec3) (v : Vec3) : Option ℝ :=
  c.map (fun cc => dist3 cc v)

/-- Binary minimum propagating NaN (none). -/
noncomputable def minNaN2 (a b : Option ℝ) : Option ℝ :=
  match a, b with
  | some x, some y => some (min x y)
  | _, _ => none

/-- torch.min over the cluster dimension, propagating NaN. -/
noncomputable def minNaN : List (Option ℝ) → Option ℝ
  | [] => none
  | [a] => a
  | a :: b :: rest => minNaN2 a (minNaN (b :: rest))

open Classical in
/-- torch.min's returned index: the first index attaining the minimum (its
value is irrelevant when the minimum is NaN, since the threshold test then
fails and the label is forced to the sentinel). -/
noncomputable def argminNaN (l : List (Option ℝ)) : ℕ :=
  match minNaN l with
  | some m => l.findIdx (fun x => decide (x = some m))
  | none => 0

open Classical in
/-- The two torch.where steps applied to one pixel given its minimal
distance (NaN-propagating), its argmin index and its mask bit. -/
noncomputable def labelOfMin : Option ℝ → ℕ → Bool → ℕ
  | some mn, am, m =>
    if mn < distance_threshold then (if m then am else 3) else 3
  | none, _, _ => 3

/-- One pixel of the assignment computed both inside the loop and after it:
nearest-centre index where the mask is set, sentinel 3 where the mask is
unset or the minimal distance is not below the threshold. -/
noncomputable def labelOf (cs : List (Option Vec3)) (v : Vec3) (m : Bool) : ℕ :=
  let ds := cs.map (fun c => distOpt c v)
  labelOfMin (minNaN ds) (argminNaN ds) m

noncomputable def kmeansAssign (cs : List (Option Vec3)) (normals : List Vec3)
    (mask : List Bool) : List ℕ :=
  (normals.zip mask).map (fun p => labelOf cs p.1 p.2)

noncomputable def sumPts (pts : List Vec3) : Vec3 :=
  pts.foldr (fun v acc => ⟨v.x + acc.x, v.y + acc.y, v.z + acc.z⟩) ⟨0, 0, 0⟩

open Classical in
/-- The centre update of one cluster: mean of the points assigned to it,
normalized.  A cluster with no members divides the zero sum by zero
(0.0/0 = NaN, modelled none); a zero mean vector normalizes to 0/0 = NaN
as well. -/
noncomputable def centerUpdate (normals : List Vec3) (labels : List ℕ)
    (i : ℕ) : Option Vec3 :=
  let pts := ((normals.zip labels).filter (fun p => decide (p.2 = i))).map Prod.fst
  if pts.length = 0 then none
  else
    let mx := (sumPts pts).x / pts.length
    let my := (sumPts pts).y / pts.length
    let mz := (sumPts pts).z / pts.length
    let nr := Real.sqrt (mx ^ 2 + my ^ 2 + mz ^ 2)
    if nr = 0 then none
    else some ⟨mx / nr, my / nr, mz / nr⟩

open Classical in
/-- The bounded k-means refinement loop: compute the assignment, break early
when it matches the previous iteration's assignment, otherwise update every
centre and continue; the fuel is max_iter. -/
noncomputable def kmeansLoop (normals : List Vec3) (mask : List Bool)
    (clusters : ℕ) : ℕ → List (Option Vec3) → Option (List ℕ) →
    List (Option Vec3)
  | 0, cs, _ => cs
  | n + 1, cs, old =>
    let ls := kmeansAssign cs normals mask
    if old = some ls then cs
    else kmeansLoop normals mask clusters n
      ((List.range clusters).map (fun i => centerUpdate normals ls i)) (some ls)

/-- kmeans with explicitly passed cluster centres (the clusters=None branch;
the default-centres branch only supplies the module's initial constants):
run the loop, then recompute and return the assignment from the final
centres together with those centres. -/
noncomputable def kmeans (normals : List Vec3) (mask : List Bool)
    (cluster_centers : List Vec3) (max_iter : ℕ) :
    List (Option Vec3) × List ℕ :=
  let cs := kmeansLoop normals mask cluster_centers.length max_iter
    (cluster_centers.map some) none
  (cs, kmeansAssign cs normals mask)

lemma minNaN_spec_some :
    ∀ (l : List (Option ℝ)) (m : ℝ), minNaN l = some m →
      some m ∈ l ∧ ∀ x ∈ l, ∃ y, x = some y ∧ m ≤ y := by
  intro l
  induction l with
  | nil => intro m h; simp [minNaN] at h
  | cons a tail ih =>
    cases tail with
    | nil =>
      intro m h
      simp only [minNaN] at h
      subst h
      exact ⟨List.mem_singleton.mpr rfl,
        fun x hx => by
          rw [List.mem_singleton] at hx
          exact ⟨m, hx, le_rfl⟩⟩
    | cons b rest =>
      intro m h
      simp only [minNaN] at h
      match ha : a, hmin : minNaN (b :: rest) with
      | none, _ => simp [minNaN2] at h
      | some x, none => rw [hmin] at h; simp [minNaN2] at h
      | some x, some y =>
        rw [hmin] at h
        simp only [minNaN2, Option.some.injEq] at h
        obtain ⟨hmem, hall⟩ := ih y hmin
        constructor
        · rcases min_choice x y with hc | hc
          · rw [← h, hc]
            exact List.mem_cons_self _ _
          · rw [← h, hc]
            exact List.mem_cons_of_mem _ hmem
        · intro z hz
          rcases List.mem_cons.mp hz with hz | hz
          · exact ⟨x, hz, by rw [← h]; exact min_le_left x y⟩
          · obtain ⟨yz, hyz, hle⟩ := hall z hz
            exact ⟨yz, hyz, by rw [← h]; exact le_trans (min_le_right x y) hle⟩

lemma minNaN_isSome_of :
    ∀ (l : List (Option ℝ)), l ≠ [] → (∀ x ∈ l, x ≠ none) →
      ∃ m, minNaN l = some m := by
  intro l
  induction l with
  | nil => intro h; exact absurd rfl h
  | cons a tail ih =>
    cases tail with
    | nil =>
      intro _ hall
      have hane : a ≠ none := hall a (by simp)
      obtain ⟨x, hx⟩ := Option.ne_none_iff_exists.mp hane
      exact ⟨x, by simp [minNaN, ← hx]⟩
    | cons b rest =>
      intro _ hall
      obtain ⟨y, hy⟩ := ih (by simp)
        (fun x hx => hall x (List.mem_cons_of_mem _ hx))
      have hane : a ≠ none := hall a (List.mem_cons_self _ _)
      obtain ⟨x, hx⟩ := Option.ne_none_iff_exists.mp hane
      exact ⟨min x y, by simp only [minNaN, minNaN2, hy, ← hx]⟩

lemma sqrt_three_not_lt_threshold : ¬ Real.sqrt 3 < distance_threshold := by
  rw [distance_threshold]
  push_neg
  have h1 : (1 : ℝ) ≤ Real.sqrt 3 := by
    rw [show (1 : ℝ) = Real.sqrt 1 from Real.sqrt_one.symm]
    exact Real.sqrt_le_sqrt (by norm_num)
  linarith

/-- C6: the claimed empty-cluster guard does not exist.  Concrete run with a
single masked normal (0,0,1) and a single cluster centre (sqrt(3)/2, 0, -1/2)
(the module's first initial centre) for one iteration: the point is farther
than the distance threshold from the centre, so cluster 0 receives no
members; the centre update computes sum([])/0 = 0.0/0 = NaN and stores the
NaN centre, which is returned, and the final label is the sentinel 3.  No
guard drops or skips the empty cluster. -/
theorem kmeans_empty_cluster_returns_nan :
    kmeans [⟨0, 0, 1⟩] [true] [⟨Real.sqrt 3 / 2, 0, -(1 / 2)⟩] 1 =
      ([none], [3]) := by
  have h3 : Real.sqrt 3 * Real.sqrt 3 = 3 :=
    Real.mul_self_sqrt (by norm_num)
  have hd : dist3 ⟨Real.sqrt 3 / 2, 0, -(1 / 2)⟩ ⟨0, 0, 1⟩ = Real.sqrt 3 := by
    rw [dist3]
    have harg : (Real.sqrt 3 / 2 - 0) ^ 2 + ((0 : ℝ) - 0) ^ 2 +
        (-(1 / 2) - 1) ^ 2 = 3 := by
      ring_nf
      linear_combination (1 / 4) * h3
    rw [harg]
  have hA1 : kmeansAssign [some ⟨Real.sqrt 3 / 2, 0, -(1 / 2)⟩]
      [⟨0, 0, 1⟩] [true] = [3] := by
    simp only [kmeansAssign, List.zip_cons_cons, List.zip_nil_right,
      List.map_cons, List.map_nil, labelOf, distOpt, Option.map_some']
    rw [hd]
    simp only [minNaN, labelOfMin]
    rw [if_neg sqrt_three_not_lt_threshold]
  have hU : centerUpdate [⟨(0 : ℝ), 0, 1⟩] [3] 0 = none := by
    rw [centerUpdate]
    simp
  have hA2 : kmeansAssign [none] [⟨(0 : ℝ), 0, 1⟩] [true] = [3] := by
    simp [kmeansAssign, labelOf, labelOfMin, distOpt, minNaN]
  have hL : kmeansLoop [⟨(0 : ℝ), 0, 1⟩] [true] 1 1
      [some ⟨Real.sqrt 3 / 2, 0, -(1 / 2)⟩] none = [none] := by
    show kmeansLoop [⟨(0 : ℝ), 0, 1⟩] [true] 1 (0 + 1)
      [some ⟨Real.sqrt 3 / 2, 0, -(1 / 2)⟩] none = [none]
    simp only [kmeansLoop, hA1]
    rw [if_neg (by simp : ¬ (none : Option (List ℕ)) = some [3])]
    simp only [show List.range 1 = [0] from rfl, List.map_cons, List.map_nil, hU]
  have hlen : ([⟨Real.sqrt 3 / 2, 0, -(1 / 2)⟩] : List Vec3).length = 1 := rfl
  simp only [kmeans, hlen, List.map_cons, List.map_nil]
  rw [hL, hA2]

lemma getD_of_lt {α : Type} (l : List α) (d : α) (j : ℕ) (hj : j < l.length) :
    l.getD j d = l[j] := by
  rw [List.getD_eq_getElem?_getD, List.getElem?_eq_getElem hj, Option.getD_some]

/-- Pixel-level condition from the claim's words (untied reading): the mask
entry is set, the distance to centre i is a real value strictly below the
module distance threshold, and centre i is a Euclidean-nearest returned
centre (IEEE semantics: a comparison involving a NaN distance is false, so
every centre's distance must be real and at least as large). -/
noncomputable def claim_label (cs : List (Option Vec3)) (v : Vec3) (m : Bool)
    (i : ℕ) : Prop :=
  m = true ∧
  ∃ di, distOpt (cs.getD i none) v = some di ∧ di < distance_threshold ∧
    ∀ j < cs.length, ∃ dj, distOpt (cs.getD j none) v = some dj ∧ di ≤ dj

/-- The same condition with ties broken toward the smallest centre index:
additionally no centre with a smaller index is as near. -/
noncomputable def claim_label_tb (cs : List (Option Vec3)) (v : Vec3)
    (m : Bool) (i : ℕ) : Prop :=
  m = true ∧
  ∃ di, distOpt (cs.getD i none) v = some di ∧ di < distance_threshold ∧
    (∀ j < cs.length, ∃ dj, distOpt (cs.getD j none) v = some dj ∧ di ≤ dj) ∧
    (∀ j < i, ∀ dj, distOpt (cs.getD j none) v = some dj → di < dj)

/-- The claim's characterization of a whole returned label image (untied
reading): pixel p carries centre label i iff claim_label holds there, and
carries the sentinel 3 when no centre label qualifies. -/
noncomputable def nearest_assignment_claim (cs : List (Option Vec3))
    (ns : List Vec3) (mask : List Bool) (ls : List ℕ) : Prop :=
  ls.length = ns.length ∧
  ∀ p < ns.length,
    (∀ i < cs.length,
      (ls.getD p 0 = i ↔
        claim_label cs (ns.getD p ⟨0, 0, 0⟩) (mask.getD p false) i)) ∧
    ((¬ ∃ i < cs.length,
        claim_label cs (ns.getD p ⟨0, 0, 0⟩) (mask.getD p false) i) →
      ls.getD p 0 = 3)

/-- The tie-broken characterization of a returned label image. -/
noncomputable def nearest_assignment_tb (cs : List (Option Vec3))
    (ns : List Vec3) (mask : List Bool) (ls : List ℕ) : Prop :=
  ls.length = ns.length ∧
  ∀ p < ns.length,
    (∀ i < cs.length,
      (ls.getD p 0 = i ↔
        claim_label_tb cs (ns.getD p ⟨0, 0, 0⟩) (mask.getD p false) i)) ∧
    ((¬ ∃ i < cs.length,
        claim_label_tb cs (ns.getD p ⟨0, 0, 0⟩) (mask.getD p false) i) →
      ls.getD p 0 = 3)

lemma ds_getD (cs : List (Option Vec3)) (v : Vec3) (j : ℕ)
    (hj : j < cs.length) :
    (cs.map (fun c => distOpt c v)).getD j none = distOpt (cs.getD j none) v := by
  rw [getD_of_lt _ _ _ (by simpa using hj), getD_of_lt _ _ _ hj,
    List.getElem_map]

lemma labelOf_eq_iff (cs : List (Option Vec3)) (v : Vec3) (m : Bool)
    (hcap : cs.length ≤ 3) (i : ℕ) (hi : i < cs.length) :
    labelOf cs v m = i ↔ claim_label_tb cs v m i := by
  have hdl : (cs.map (fun c => distOpt c v)).length = cs.length :=
    List.length_map _ _
  have hi' : i < (cs.map (fun c => distOpt c v)).length := by omega
  constructor
  · intro h
    rw [labelOf] at h
    rcases hmin : minNaN (cs.map (fun c => distOpt c v)) with _ | mn
    · rw [hmin] at h
      simp only [labelOfMin] at h
      exact absurd h (by omega)
    · rw [hmin] at h
      simp only [labelOfMin] at h
      by_cases hlt : mn < distance_threshold
      · rw [if_pos hlt] at h
        by_cases hm : m = true
        · rw [if_pos hm] at h
          rw [argminNaN, hmin] at h
          obtain ⟨hpi, hprev⟩ := (List.findIdx_eq hi').mp h
          simp only [decide_eq_true_eq] at hpi
          obtain ⟨hmem, hall⟩ := minNaN_spec_some _ _ hmin
          refine ⟨hm, mn, ?_, hlt, ?_, ?_⟩
          · rw [← ds_getD cs v i hi, getD_of_lt _ _ _ hi']
            exact hpi
          · intro j hj
            obtain ⟨dj, hdj, hle⟩ := hall _
              (List.getElem_mem (show j < (cs.map (fun c => distOpt c v)).length by omega))
            refine ⟨dj, ?_, hle⟩
            rw [← ds_getD cs v j hj, getD_of_lt _ _ _ (by omega)]
            exact hdj
          · intro j hj dj hdj
            have hne := hprev j hj
            simp only [decide_eq_false_iff_not] at hne
            rw [← ds_getD cs v j (by omega),
              getD_of_lt _ _ _ (by omega : j < (cs.map (fun c => distOpt c v)).length)] at hdj
            obtain ⟨dj2, hdj2, hle⟩ := hall _
              (List.getElem_mem (show j < (cs.map (fun c => distOpt c v)).length by omega))
            rw [hdj2] at hdj
            injection hdj with hdj
            subst hdj
            rcases lt_or_eq_of_le hle with hlt2 | heq
            · exact hlt2
            · exact absurd (heq ▸ hdj2) hne
        · rw [if_neg hm] at h
          exact absurd h (by omega)
      · rw [if_neg hlt] at h
        exact absurd h (by omega)
  · rintro ⟨hm, di, hdi, hlt, halle, hfirst⟩
    have hall_some : ∀ x ∈ cs.map (fun c => distOpt c v), x ≠ none := by
      intro x hx
      obtain ⟨j, hj, hxj⟩ := List.mem_iff_getElem.mp hx
      obtain ⟨dj, hdj, -⟩ := halle j (by omega)
      rw [← ds_getD cs v j (by omega), getD_of_lt _ _ _ hj] at hdj
      rw [← hxj, hdj]
      simp
    have hne : cs.map (fun c => distOpt c v) ≠ [] := by
      intro h0
      rw [h0] at hdl
      simp at hdl
      omega
    obtain ⟨mn, hmin⟩ := minNaN_isSome_of _ hne hall_some
    obtain ⟨hmem, hall⟩ := minNaN_spec_some _ _ hmin
    have hdsi : (cs.map (fun c => distOpt c v))[i] = some di := by
      rw [← getD_of_lt _ none _ hi', ds_getD cs v i hi]
      exact hdi
    have hmn_le_di : mn ≤ di := by
      obtain ⟨y, hy, hle⟩ := hall _ (List.getElem_mem hi')
      rw [hdsi] at hy
      injection hy with hy
      subst hy
      exact hle
    have hdi_le_mn : di ≤ mn := by
      obtain ⟨k, hk, hke⟩ := List.mem_iff_getElem.mp hmem
      obtain ⟨dk, hdk, hled⟩ := halle k (by omega)
      rw [← ds_getD cs v k (by omega), getD_of_lt _ _ _ hk] at hdk
      rw [hke] at hdk
      injection hdk with hdk
      rw [hdk]
      exact hled
    have hmndi : mn = di := le_antisymm hmn_le_di hdi_le_mn
    rw [labelOf, hmin]
    simp only [labelOfMin]
    rw [if_pos (by rw [hmndi]; exact hlt), if_pos hm]
    rw [argminNaN, hmin]
    refine (List.findIdx_eq hi').mpr ⟨?_, ?_⟩
    · simp only [decide_eq_true_eq]
      rw [hdsi, hmndi]
    · intro j hj
      simp only [decide_eq_false_iff_not]
      intro hbad
      obtain ⟨dj, hdj, -⟩ := halle j (by omega)
      have hdj2 : (cs.map (fun c => distOpt c v))[j] = some dj := by
        rw [← getD_of_lt _ none _ (Nat.lt_trans hj hi'),
          ds_getD cs v j (by omega)]
        exact hdj
      rw [hbad] at hdj2
      injection hdj2 with he
      have hstrict := hfirst j hj dj hdj
      rw [← he, hmndi] at hstrict
      exact lt_irrefl di hstrict

lemma labelOf_sentinel (cs : List (Option Vec3)) (v : Vec3) (m : Bool)
    (hcap : cs.length ≤ 3)
    (h : ¬ ∃ i, i < cs.length ∧ claim_label_tb cs v m i) :
    labelOf cs v m = 3 := by
  rcases hmin : minNaN (cs.map (fun c => distOpt c v)) with _ | mn
  · rw [labelOf, hmin]
    simp only [labelOfMin]
  · by_cases hlt : mn < distance_threshold
    · by_cases hm : m = true
      · exfalso
        have hk : labelOf cs v m = argminNaN (cs.map (fun c => distOpt c v)) := by
          rw [labelOf, hmin]
          simp only [labelOfMin]
          rw [if_pos hlt, if_pos hm]
        have hmem := (minNaN_spec_some _ _ hmin).1
        have hklen : argminNaN (cs.map (fun c => distOpt c v)) < cs.length := by
          rw [argminNaN, hmin]
          have := List.findIdx_lt_length_of_exists
            (p := fun x => decide (x = some mn)) ⟨some mn, hmem, by simp⟩
          rw [List.length_map] at this
          exact this
        exact h ⟨_, hklen, (labelOf_eq_iff cs v m hcap _ hklen).mp hk⟩
      · rw [labelOf, hmin]
        simp only [labelOfMin]
        rw [if_pos hlt, if_neg hm]
    · rw [labelOf, hmin]
      simp only [labelOfMin]
      rw [if_neg hlt]

lemma kmeansLoop_length (ns : List Vec3) (mask : List Bool) (k : ℕ) :
    ∀ (n : ℕ) (cs : List (Option Vec3)) (old : Option (List ℕ)),
      cs.length = k → (kmeansLoop ns mask k n cs old).length = k := by
  intro n
  induction n with
  | zero =>
    intro cs old h
    simpa [kmeansLoop] using h
  | succ m ih =>
    intro cs old h
    simp only [kmeansLoop]
    by_cases hb : old = some (kmeansAssign cs ns mask)
    · rw [if_pos hb]
      exact h
    · rw [if_neg hb]
      exact ih _ _ (by simp)

/-- C10 (amended): for every input (normals, mask of equal length, explicit
centres, any max_iter >= 0, early break included) with at most 3 clusters,
the label image returned by kmeans is the nearest-centre assignment
recomputed from the returned centres: a pixel carries label i iff its mask
bit is set, centre i's distance is real (not NaN) and strictly below the
module distance threshold, centre i is nearest among the returned centres,
and no centre of smaller index is as near (torch.min's first-minimum index);
every other pixel carries the sentinel 3. -/
theorem kmeans_labels_are_nearest_assignment
    (normals : List Vec3) (mask : List Bool) (cluster_centers : List Vec3)
    (max_iter : ℕ) (hm : mask.length = normals.length)
    (hcap : cluster_centers.length ≤ 3) :
    nearest_assignment_tb (kmeans normals mask cluster_centers max_iter).1
      normals mask (kmeans normals mask cluster_centers max_iter).2 := by
  have hlencs : (kmeans normals mask cluster_centers max_iter).1.length ≤ 3 := by
    simp only [kmeans]
    rw [kmeansLoop_length normals mask _ _ _ _ (by simp)]
    exact hcap
  have hsnd : (kmeans normals mask cluster_centers max_iter).2 =
      kmeansAssign (kmeans normals mask cluster_centers max_iter).1
        normals mask := rfl
  rw [hsnd]
  constructor
  · rw [kmeansAssign, List.length_map, List.length_zip, hm, min_self]
  · intro p hp
    have hzl : p < (normals.zip mask).length := by
      rw [List.length_zip, hm, min_self]
      exact hp
    have hgp : (kmeansAssign (kmeans normals mask cluster_centers max_iter).1
        normals mask).getD p 0 =
        labelOf (kmeans normals mask cluster_centers max_iter).1
          (normals.getD p ⟨0, 0, 0⟩) (mask.getD p false) := by
      rw [kmeansAssign, getD_of_lt _ _ _ (by rw [List.length_map]; exact hzl),
        List.getElem_map, List.getElem_zip,
        getD_of_lt _ _ _ hp, getD_of_lt _ _ _ (by omega)]
    constructor
    · intro i hi
      rw [hgp]
      exact labelOf_eq_iff _ _ _ hlencs i hi
    · intro hnone
      rw [hgp]
      refine labelOf_sentinel _ _ _ hlencs ?_
      intro ⟨i, hilt, hcl⟩
      exact hnone ⟨i, hilt, hcl⟩

/-- Witness for the amended C10 at a concrete one-pixel input. -/
theorem kmeans_labels_are_nearest_assignment_witness :
    nearest_assignment_tb (kmeans [⟨0, 0, 1⟩] [true] [⟨0, 0, 1⟩] 0).1
      [⟨0, 0, 1⟩] [true] (kmeans [⟨0, 0, 1⟩] [true] [⟨0, 0, 1⟩] 0).2 :=
  kmeans_labels_are_nearest_assignment [⟨0, 0, 1⟩] [true] [⟨0, 0, 1⟩] 0
    rfl (by norm_num)

/-- C10 counterexample: with a single masked pixel at (0,0,1), two identical
returned centres (0,0,1) (max_iter = 0, so the loop leaves the given centres
untouched) and equal zero distances below the threshold, the code labels the
pixel 0 (torch.min takes the first minimal index), yet centre 1 is also a
Euclidean-nearest centre with distance below the threshold, so the claimed
iff — label i if and only if centre i is the pixel's nearest centre within
threshold — fails at i = 1. -/
theorem kmeans_nearest_claim_counterexample :
    ¬ nearest_assignment_claim
        (kmeans [⟨0, 0, 1⟩] [true] [⟨0, 0, 1⟩, ⟨0, 0, 1⟩] 0).1
        [⟨0, 0, 1⟩] [true]
        (kmeans [⟨0, 0, 1⟩] [true] [⟨0, 0, 1⟩, ⟨0, 0, 1⟩] 0).2 := by
  have hd0 : dist3 ⟨(0 : ℝ), 0, 1⟩ ⟨0, 0, 1⟩ = 0 := by
    simp [dist3]
  have hL : (kmeans [⟨(0 : ℝ), 0, 1⟩] [true] [⟨0, 0, 1⟩, ⟨0, 0, 1⟩] 0).1 =
      [some ⟨0, 0, 1⟩, some ⟨0, 0, 1⟩] := by
    simp [kmeans, kmeansLoop]
  have hlab : (kmeans [⟨(0 : ℝ), 0, 1⟩] [true] [⟨0, 0, 1⟩, ⟨0, 0, 1⟩] 0).2 = [0] := by
    have h2 : (kmeans [⟨(0 : ℝ), 0, 1⟩] [true] [⟨0, 0, 1⟩, ⟨0, 0, 1⟩] 0).2 =
        kmeansAssign [some ⟨0, 0, 1⟩, some ⟨0, 0, 1⟩] [⟨0, 0, 1⟩] [true] := by
      rw [show (kmeans [⟨(0 : ℝ), 0, 1⟩] [true] [⟨0, 0, 1⟩, ⟨0, 0, 1⟩] 0).2 =
        kmeansAssign (kmeans [⟨(0 : ℝ), 0, 1⟩] [true] [⟨0, 0, 1⟩, ⟨0, 0, 1⟩] 0).1
          [⟨0, 0, 1⟩] [true] from rfl, hL]
    rw [h2]
    simp only [kmeansAssign, List.zip_cons_cons, List.zip_nil_right,
      List.map_cons, List.map_nil, labelOf, distOpt, Option.map_some']
    rw [hd0]
    simp only [minNaN, minNaN2, min_self, labelOfMin]
    rw [if_pos (by rw [distance_threshold]; norm_num : (0 : ℝ) < distance_threshold)]
    simp only [if_true]
    rw [argminNaN]
    simp only [minNaN, minNaN2, min_self]
    simp [List.findIdx_cons]
  intro hclaim
  obtain ⟨hlen, hall⟩ := hclaim
  have h0 := (hall 0 (by norm_num)).1 1 (by rw [hL]; norm_num)
  have hrhs : claim_label
      (kmeans [⟨(0 : ℝ), 0, 1⟩] [true] [⟨0, 0, 1⟩, ⟨0, 0, 1⟩] 0).1
      (([⟨(0 : ℝ), 0, 1⟩] : List Vec3).getD 0 ⟨0, 0, 0⟩)
      (([true] : List Bool).getD 0 false) 1 := by
    refine ⟨rfl, 0, ?_, ?_, ?_⟩
    · rw [hL]
      norm_num [distOpt, dist3, Real.sqrt_zero]
    · rw [distance_threshold]
      norm_num
    · intro j hj
      rw [hL] at hj ⊢
      refine ⟨0, ?_, le_rfl⟩
      simp only [List.length_cons, List.length_nil] at hj
      interval_cases j <;>
        norm_num [distOpt, dist3, Real.sqrt_zero]
  have := h0.mpr hrhs
  rw [hlab] at this
  simp at this

/-! ## RegionExtractor: get_connected_components
(src/connected_components.py, lines 108-152)

The label image is a grid Fin h -> Fin w -> Nat.  cv2.connectedComponents is
an external call: the embedding takes the labeling function as a parameter
together with the contract the library documents (at least one label,
label 0 exactly off the mask, labels below the returned count, every
component label 1..ret-1 non-empty).  np.unique(labels) is the sorted list
of present values, which under that contract is the filtered range of ret;
np.where(counts > threshold)[0] is the list of indices into that unique
array whose count exceeds h*w*fraction; valid_labels[0] on an empty
selection raises IndexError (modelled none).  Morphological closing and
interior flood fill are disabled by default (closing_size=None,
flood_filling=False, the pipeline's defaults), which is the path modelled
here.  The per-step state carries the shared global label image, the
insertion-ordered component-to-cluster dict, and the running ID counter. -/

def countVal {h w : ℕ} (L : Fin h → Fin w → ℕ) (u : ℕ) : ℕ :=
  (Finset.univ.filter (fun p : Fin h × Fin w => L p.1 p.2 = u)).card

structure CCState (h w : ℕ) where
  out : Fin h → Fin w → ℕ
  dict : List (ℕ × ℕ)
  counter : ℕ

instance {h w : ℕ} : DecidableEq (CCState h w) := fun a b =>
  match a, b with
  | ⟨o1, d1, c1⟩, ⟨o2, d2, c2⟩ =>
    if h1 : o1 = o2 then
      if h2 : d1 = d2 then
        if h3 : c1 = c2 then isTrue (by rw [h1, h2, h3])
        else isFalse (fun he => h3 (congrArg CCState.counter he))
      else isFalse (fun he => h2 (congrArg CCState.dict he))
    else isFalse (fun he => h1 (congrArg CCState.out he))

/-- Python dict.update for a single key: overwrite if present, else append
(insertion order preserved). -/
def dictInsert (d : List (ℕ × ℕ)) (k v : ℕ) : List (ℕ × ℕ) :=
  if d.any (fun e => decide (e.1 = k)) then
    d.map (fun e => if e.1 = k then (k, v) else e)
  else d ++ [(k, v)]

/-- The valid_labels[0] access plus the conditional drop of the background
index: fails (IndexError) on an empty selection. -/
def dropBackgroundIdx (l : List ℕ) : Option (List ℕ) :=
  match l with
  | [] => none
  | i0 :: rest => some (if i0 = 0 then rest else i0 :: rest)

/-- One write of the merge loop: out = np.where(labels + counter == id,
labels + counter, out). -/
def ccWrite {h w : ℕ} (labels : Fin h → Fin w → ℕ) (c : ℕ)
    (o : Fin h → Fin w → ℕ) (id : ℕ) : Fin h → Fin w → ℕ :=
  fun i j => if labels i j + c = id then labels i j + c else o i j

/-- The binary mask np.where(normal_indices == v_i, 1, 0). -/
def ccMask {h w : ℕ} (normal_indices : Fin h → Fin w → ℕ) (v : ℕ) :
    Fin h → Fin w → Bool :=
  fun i j => decide (normal_indices i j = v)

/-- np.unique(labels): the sorted distinct values present; labels lie below
the returned count, so this is the filtered range. -/
def ccUniq {h w : ℕ}
    (labeling : (Fin h → Fin w → Bool) → ℕ × (Fin h → Fin w → ℕ))
    (mask : Fin h → Fin w → Bool) : List ℕ :=
  (List.range (labeling mask).1).filter
    (fun u => decide (0 < countVal (labeling mask).2 u))

/-- np.where(counts > component_size_threshold)[0]: the indices into the
unique array whose count exceeds the threshold, ascending. -/
def ccValidIdx {h w : ℕ}
    (labeling : (Fin h → Fin w → Bool) → ℕ × (Fin h → Fin w → ℕ))
    (mask : Fin h → Fin w → Bool) (th : ℚ) : List ℕ :=
  (List.range (ccUniq labeling mask).length).filter
    (fun i => decide
      (th < (countVal (labeling mask).2 ((ccUniq labeling mask).getD i 0) : ℚ)))

def ccStep {h w : ℕ}
    (labeling : (Fin h → Fin w → Bool) → ℕ × (Fin h → Fin w → ℕ))
    (normal_indices : Fin h → Fin w → ℕ) (th : ℚ)
    (st : CCState h w) (v : ℕ) : Option (CCState h w) :=
  let labels := (labeling (ccMask normal_indices v)).2
  match dropBackgroundIdx (ccValidIdx labeling (ccMask normal_indices v) th) with
  | none => none
  | some validIdx2 =>
    if validIdx2 = [] then some st
    else
      some ⟨(validIdx2.map (fun i => i + st.counter)).foldl
              (ccWrite labels st.counter) st.out,
            (validIdx2.map (fun i => i + st.counter)).foldl
              (fun d id => dictInsert d id v) st.dict,
            st.counter + validIdx2.foldr max 0⟩

def ccRun {h w : ℕ}
    (labeling : (Fin h → Fin w → Bool) → ℕ × (Fin h → Fin w → ℕ))
    (nIdx : Fin h → Fin w → ℕ) (th : ℚ) :
    CCState h w → List ℕ → Option (CCState h w)
  | st, [] => some st
  | st, v :: rest =>
    match ccStep labeling nIdx th st v with
    | none => none
    | some st2 => ccRun labeling nIdx th st2 rest

def get_connected_components {h w : ℕ}
    (labeling : (Fin h → Fin w → Bool) → ℕ × (Fin h → Fin w → ℕ))
    (nIdx : Fin h → Fin w → ℕ) (valid_indices : List ℕ)
    (fraction_threshold : ℚ) : Option (CCState h w) :=
  ccRun labeling nIdx (((h * w : ℕ) : ℚ) * fraction_threshold)
    ⟨fun _ _ => 0, [], 0⟩ valid_indices

/-- Documented contract of cv2.connectedComponents on a binary mask: a
positive label count, label 0 exactly on the background (mask false),
all labels below the count, every foreground label 1..ret-1 carried by at
least one pixel, and an all-foreground image forming a single component
(the full grid is 4-connected), i.e. ret = 2. -/
def LabelingContract {h w : ℕ}
    (labeling : (Fin h → Fin w → Bool) → ℕ × (Fin h → Fin w → ℕ)) : Prop :=
  ∀ mask : Fin h → Fin w → Bool,
    1 ≤ (labeling mask).1 ∧
    (∀ i j, ((labeling mask).2 i j = 0 ↔ mask i j = false)) ∧
    (∀ i j, (labeling mask).2 i j < (labeling mask).1) ∧
    (∀ u, 1 ≤ u → u < (labeling mask).1 → 0 < countVal (labeling mask).2 u) ∧
    ((∀ i j, mask i j = true) → (labeling mask).1 = 2)

lemma le_foldr_max (l : List ℕ) : ∀ x ∈ l, x ≤ l.foldr max 0 := by
  induction l with
  | nil => intro x hx; simp at hx
  | cons a t ih =>
    intro x hx
    rcases List.mem_cons.mp hx with rfl | hx
    · exact le_max_left _ _
    · exact le_trans (ih x hx) (le_max_right _ _)

lemma dropBackgroundIdx_spec (l l2 : List ℕ) (hp : l.Pairwise (· < ·))
    (h : dropBackgroundIdx l = some l2) :
    (∀ x ∈ l2, 1 ≤ x) ∧ l2.Pairwise (· < ·) ∧ ∀ x ∈ l2, x ∈ l := by
  match l with
  | [] => simp [dropBackgroundIdx] at h
  | i0 :: rest =>
    simp only [dropBackgroundIdx, Option.some.injEq] at h
    by_cases h0 : i0 = 0
    · rw [if_pos h0] at h
      subst h
      refine ⟨?_, (List.pairwise_cons.mp hp).2, fun x hx => List.mem_cons_of_mem _ hx⟩
      intro x hx
      have := (List.pairwise_cons.mp hp).1 x hx
      omega
    · rw [if_neg h0] at h
      subst h
      refine ⟨?_, hp, fun x hx => hx⟩
      intro x hx
      rcases List.mem_cons.mp hx with rfl | hx
      · omega
      · have := (List.pairwise_cons.mp hp).1 x hx
        omega

lemma ccWrite_fold_preserve {h w : ℕ} (labels : Fin h → Fin w → ℕ) (c : ℕ) :
    ∀ (ids : List ℕ) (o : Fin h → Fin w → ℕ) (i : Fin h) (j : Fin w),
      (∀ id ∈ ids, labels i j + c ≠ id) →
      (ids.foldl (ccWrite labels c) o) i j = o i j := by
  intro ids
  induction ids with
  | nil => intro o i j _; rfl
  | cons a t ih =>
    intro o i j hne
    rw [List.foldl_cons]
    rw [ih _ i j (fun id hid => hne id (List.mem_cons_of_mem _ hid))]
    rw [ccWrite, if_neg (hne a (List.mem_cons_self _ _))]

lemma ccWrite_fold_val {h w : ℕ} (labels : Fin h → Fin w → ℕ) (c : ℕ) :
    ∀ (ids : List ℕ) (o : Fin h → Fin w → ℕ) (i : Fin h) (j : Fin w),
      (ids.foldl (ccWrite labels c) o) i j = o i j ∨
      (labels i j + c ∈ ids ∧
        (ids.foldl (ccWrite labels c) o) i j = labels i j + c) := by
  intro ids
  induction ids with
  | nil => intro o i j; left; rfl
  | cons a t ih =>
    intro o i j
    rw [List.foldl_cons]
    rcases ih (ccWrite labels c o a) i j with hcase | ⟨hmem, hval⟩
    · rw [hcase, ccWrite]
      by_cases hc : labels i j + c = a
      · right
        exact ⟨by rw [hc]; exact List.mem_cons_self _ _, by rw [if_pos hc]⟩
      · left
        rw [if_neg hc]
    · right
      exact ⟨List.mem_cons_of_mem _ hmem, hval⟩

lemma dictInsert_fresh (d : List (ℕ × ℕ)) (k v : ℕ)
    (hf : ∀ e ∈ d, e.1 ≠ k) : dictInsert d k v = d ++ [(k, v)] := by
  rw [dictInsert, if_neg]
  simp only [List.any_eq_true, decide_eq_true_eq, not_exists]
  intro e he
  exact hf e he.1 he.2

lemma dictFold_append (v : ℕ) :
    ∀ (ids : List ℕ) (d : List (ℕ × ℕ)),
      (∀ id ∈ ids, ∀ e ∈ d, e.1 ≠ id) → ids.Nodup →
      ids.foldl (fun d id => dictInsert d id v) d =
        d ++ ids.map (fun id => (id, v)) := by
  intro ids
  induction ids with
  | nil => intro d _ _; simp
  | cons a t ih =>
    intro d hf hnd
    rw [List.foldl_cons, dictInsert_fresh d a v
      (fun e he => hf a (List.mem_cons_self _ _) e he)]
    rw [ih (d ++ [(a, v)]) ?_ (List.nodup_cons.mp hnd).2]
    · simp
    · intro id hid e he
      rcases List.mem_append.mp he with he | he
      · exact hf id (List.mem_cons_of_mem _ hid) e he
      · simp only [List.mem_singleton] at he
        subst he
        intro hk
        have hat : a ∈ t := by
          show ((a, v) : ℕ × ℕ).1 ∈ t
          rw [hk]
          exact hid
        exact (List.nodup_cons.mp hnd).1 hat

lemma ccValidIdx_pairwise {h w : ℕ}
    (labeling : (Fin h → Fin w → Bool) → ℕ × (Fin h → Fin w → ℕ))
    (mask : Fin h → Fin w → Bool) (th : ℚ) :
    (ccValidIdx labeling mask th).Pairwise (· < ·) :=
  List.Pairwise.sublist (List.filter_sublist _) (List.pairwise_lt_range _)

lemma ccValidIdx_mem {h w : ℕ}
    (labeling : (Fin h → Fin w → Bool) → ℕ × (Fin h → Fin w → ℕ))
    (mask : Fin h → Fin w → Bool) (th : ℚ) (i : ℕ)
    (hi : i ∈ ccValidIdx labeling mask th) :
    i < (ccUniq labeling mask).length ∧
      th < (countVal (labeling mask).2 ((ccUniq labeling mask).getD i 0) : ℚ) := by
  rw [ccValidIdx, List.mem_filter, List.mem_range] at hi
  exact ⟨hi.1, of_decide_eq_true hi.2⟩

lemma ccStep_spec {h w : ℕ}
    (labeling : (Fin h → Fin w → Bool) → ℕ × (Fin h → Fin w → ℕ))
    (nIdx : Fin h → Fin w → ℕ) (th : ℚ) (st st2 : CCState h w) (v : ℕ)
    (hcon : LabelingContract labeling)
    (hkeys : ∀ e ∈ st.dict, e.1 ≤ st.counter)
    (hown : ∀ i j, st.out i j ≠ 0 → nIdx i j ≠ v)
    (hstep : ccStep labeling nIdx th st v = some st2) :
    st.counter ≤ st2.counter ∧
    (∃ newIds : List ℕ,
      st2.dict = st.dict ++ newIds.map (fun id => (id, v)) ∧
      (∀ id ∈ newIds, st.counter < id ∧ id ≤ st2.counter) ∧
      newIds.Nodup) ∧
    (∀ i j, st.out i j ≠ 0 → st2.out i j = st.out i j) ∧
    (∀ i j, st2.out i j = st.out i j ∨ nIdx i j = v) := by
  simp only [ccStep] at hstep
  rcases hdrop : dropBackgroundIdx (ccValidIdx labeling (ccMask nIdx v) th)
    with _ | vi2
  · rw [hdrop] at hstep
    exact absurd hstep (by simp)
  · rw [hdrop] at hstep
    dsimp only at hstep
    by_cases hemp : vi2 = []
    · rw [if_pos hemp] at hstep
      obtain rfl := Option.some.inj hstep
      exact ⟨le_refl _, ⟨[], by simp, by simp, List.nodup_nil⟩,
        fun i j _ => rfl, fun i j => Or.inl rfl⟩
    · rw [if_neg hemp] at hstep
      obtain rfl := Option.some.inj hstep
      obtain ⟨hge1, hpw, hsub⟩ := dropBackgroundIdx_spec _ _
        (ccValidIdx_pairwise labeling (ccMask nIdx v) th) hdrop
      have hmax : ∀ x ∈ vi2, x ≤ vi2.foldr max 0 := le_foldr_max vi2
      refine ⟨Nat.le_add_right _ _, ?_, ?_, ?_⟩
      · refine ⟨vi2.map (fun i => i + st.counter), ?_, ?_, ?_⟩
        · show (vi2.map (fun i => i + st.counter)).foldl
            (fun d id => dictInsert d id v) st.dict = _
          rw [dictFold_append]
          · intro id hid e he
            obtain ⟨x, hx, rfl⟩ := List.mem_map.mp hid
            have := hge1 x hx
            have := hkeys e he
            omega
          · refine List.Nodup.map (fun a b hab => by omega) ?_
            exact hpw.imp (fun hab => Nat.ne_of_lt hab)
        · intro id hid
          obtain ⟨x, hx, rfl⟩ := List.mem_map.mp hid
          have h1 := hge1 x hx
          have h2 := hmax x hx
          show st.counter < x + st.counter ∧
            x + st.counter ≤ st.counter + vi2.foldr max 0
          omega
        · refine List.Nodup.map (fun a b hab => by omega) ?_
          exact hpw.imp (fun hab => Nat.ne_of_lt hab)
      · intro i j hne
        show (vi2.map (fun i => i + st.counter)).foldl
          (ccWrite (labeling (ccMask nIdx v)).2 st.counter) st.out i j = _
        refine ccWrite_fold_preserve _ _ _ _ _ _ ?_
        intro id hid
        obtain ⟨x, hx, rfl⟩ := List.mem_map.mp hid
        have hx1 := hge1 x hx
        have hmf : ccMask nIdx v i j = false := by
          rw [ccMask]
          exact decide_eq_false (hown i j hne)
        have hl0 : (labeling (ccMask nIdx v)).2 i j = 0 :=
          ((hcon (ccMask nIdx v)).2.1 i j).mpr hmf
        omega
      · intro i j
        rcases ccWrite_fold_val (labeling (ccMask nIdx v)).2 st.counter
          (vi2.map (fun i => i + st.counter)) st.out i j with hc | ⟨hmem, _⟩
        · exact Or.inl hc
        · right
          obtain ⟨x, hx, hxe⟩ := List.mem_map.mp hmem
          have hx1 := hge1 x hx
          have hl : (labeling (ccMask nIdx v)).2 i j = x := by omega
          have hlne : (labeling (ccMask nIdx v)).2 i j ≠ 0 := by omega
          have hmt : ¬ ccMask nIdx v i j = false := by
            intro hf
            exact hlne (((hcon (ccMask nIdx v)).2.1 i j).mpr hf)
          rw [ccMask] at hmt
          have := of_decide_eq_true (eq_true_of_ne_false (by
            intro hf
            exact hmt hf))
          exact this

/-- Loop invariant of the per-cluster iteration: dict keys are positive and
bounded by the running counter, keys never repeat, and any assigned pixel
of the shared label image belongs to an already-processed cluster. -/
def CCInv {h w : ℕ} (nIdx : Fin h → Fin w → ℕ) (processed : List ℕ)
    (st : CCState h w) : Prop :=
  (∀ e ∈ st.dict, 1 ≤ e.1 ∧ e.1 ≤ st.counter) ∧
  (st.dict.map Prod.fst).Nodup ∧
  (∀ i j, st.out i j ≠ 0 → nIdx i j ∈ processed)

lemma ccRun_inv {h w : ℕ}
    (labeling : (Fin h → Fin w → Bool) → ℕ × (Fin h → Fin w → ℕ))
    (nIdx : Fin h → Fin w → ℕ) (th : ℚ)
    (hcon : LabelingContract labeling) :
    ∀ (vs processed : List ℕ) (st st2 : CCState h w),
      CCInv nIdx processed st →
      (∀ v ∈ vs, v ∉ processed) → vs.Nodup →
      ccRun labeling nIdx th st vs = some st2 →
      CCInv nIdx (processed ++ vs) st2 ∧
      st.counter ≤ st2.counter ∧
      (∃ d2, st2.dict = st.dict ++ d2 ∧ ∀ e ∈ d2, st.counter < e.1) ∧
      (∀ i j, st.out i j ≠ 0 → st2.out i j = st.out i j) := by
  intro vs
  induction vs with
  | nil =>
    intro processed st st2 hinv _ _ hrun
    obtain rfl := Option.some.inj hrun
    exact ⟨by simpa using hinv, le_refl _, ⟨[], by simp⟩, fun i j _ => rfl⟩
  | cons v rest ih =>
    intro processed st st2 hinv hfresh hnd hrun
    rw [ccRun] at hrun
    rcases hs : ccStep labeling nIdx th st v with _ | stm
    · rw [hs] at hrun
      exact absurd hrun (by simp)
    · rw [hs] at hrun
      dsimp only at hrun
      obtain ⟨hmono, ⟨newIds, hdicteq, hbnd, hndnew⟩, hpres, hownv⟩ :=
        ccStep_spec labeling nIdx th st stm v hcon
          (fun e he => (hinv.1 e he).2)
          (fun i j hne heq => hfresh v (List.mem_cons_self _ _)
            (heq ▸ hinv.2.2 i j hne)) hs
      have hinvm : CCInv nIdx (processed ++ [v]) stm := by
        refine ⟨?_, ?_, ?_⟩
        · intro e he
          rw [hdicteq] at he
          rcases List.mem_append.mp he with he | he
          · have := hinv.1 e he
            omega
          · obtain ⟨id, hid, rfl⟩ := List.mem_map.mp he
            have := hbnd id hid
            show 1 ≤ id ∧ id ≤ stm.counter
            omega
        · rw [hdicteq, List.map_append, List.map_map]
          have hcomp : (Prod.fst ∘ fun id : ℕ => ((id, v) : ℕ × ℕ)) = id := rfl
          rw [hcomp, List.map_id]
          refine List.Nodup.append hinv.2.1 hndnew ?_
          intro x hx1 hx2
          obtain ⟨e, he, rfl⟩ := List.mem_map.mp hx1
          have := (hinv.1 e he).2
          have := (hbnd _ hx2).1
          omega
        · intro i j hne
          rcases hownv i j with heq | heq
          · rw [heq] at hne
            exact List.mem_append_left _ (hinv.2.2 i j hne)
          · rw [heq]
            exact List.mem_append_right _ (List.mem_singleton_self _)
      have hvrest : v ∉ rest := (List.nodup_cons.mp hnd).1
      obtain ⟨hinv2, hmono2, ⟨d2, hd2, hd2k⟩, hpres2⟩ :=
        ih (processed ++ [v]) stm st2 hinvm
          (fun u hu humem => by
            rcases List.mem_append.mp humem with hm | hm
            · exact hfresh u (List.mem_cons_of_mem _ hu) hm
            · rw [List.mem_singleton] at hm
              subst hm
              exact hvrest hu)
          (List.nodup_cons.mp hnd).2 hrun
      refine ⟨?_, le_trans hmono hmono2,
        ⟨newIds.map (fun id => (id, v)) ++ d2, ?_, ?_⟩, ?_⟩
      · have hl : (processed ++ [v]) ++ rest = processed ++ v :: rest := by
          simp
        rwa [hl] at hinv2
      · rw [hd2, hdicteq, List.append_assoc]
      · intro e he
        rcases List.mem_append.mp he with he | he
        · obtain ⟨id, hid, rfl⟩ := List.mem_map.mp he
          exact (hbnd id hid).1
        · have := hd2k e he
          omega
      · intro i j hne
        rw [hpres2 i j (by rw [hpres i j hne]; exact hne), hpres i j hne]

lemma ccRun_append {h w : ℕ}
    (labeling : (Fin h → Fin w → Bool) → ℕ × (Fin h → Fin w → ℕ))
    (nIdx : Fin h → Fin w → ℕ) (th : ℚ) :
    ∀ (l1 l2 : List ℕ) (st st2 : CCState h w),
      ccRun labeling nIdx th st (l1 ++ l2) = some st2 →
      ∃ st1, ccRun labeling nIdx th st l1 = some st1 ∧
        ccRun labeling nIdx th st1 l2 = some st2 := by
  intro l1
  induction l1 with
  | nil =>
    intro l2 st st2 hrun
    exact ⟨st, rfl, hrun⟩
  | cons v rest ih =>
    intro l2 st st2 hrun
    rw [List.cons_append, ccRun] at hrun
    rcases hs : ccStep labeling nIdx th st v with _ | stm
    · rw [hs] at hrun
      exact absurd hrun (by simp)
    · rw [hs] at hrun
      dsimp only at hrun
      obtain ⟨st1, h1, h2⟩ := ih l2 stm st2 hrun
      refine ⟨st1, ?_, h2⟩
      rw [ccRun, hs]
      exact h1

lemma ccStep_threshold {h w : ℕ}
    (labeling : (Fin h → Fin w → Bool) → ℕ × (Fin h → Fin w → ℕ))
    (nIdx : Fin h → Fin w → ℕ) (th : ℚ) (st st2 : CCState h w) (v : ℕ)
    (hcon : LabelingContract labeling)
    (hkeys : ∀ e ∈ st.dict, e.1 ≤ st.counter)
    (hstep : ccStep labeling nIdx th st v = some st2) :
    ∃ newIds : List ℕ,
      st2.dict = st.dict ++ newIds.map (fun id => (id, v)) ∧
      ∀ id ∈ newIds,
        th < (countVal (labeling (ccMask nIdx v)).2 (id - st.counter) : ℚ) := by
  simp only [ccStep] at hstep
  rcases hdrop : dropBackgroundIdx (ccValidIdx labeling (ccMask nIdx v) th)
    with _ | vi2
  · rw [hdrop] at hstep
    exact absurd hstep (by simp)
  · rw [hdrop] at hstep
    dsimp only at hstep
    obtain ⟨hge1, hpw, hsub⟩ := dropBackgroundIdx_spec _ _
      (ccValidIdx_pairwise labeling (ccMask nIdx v) th) hdrop
    by_cases hemp : vi2 = []
    · rw [if_pos hemp] at hstep
      obtain rfl := Option.some.inj hstep
      exact ⟨[], by simp, by simp⟩
    · rw [if_neg hemp] at hstep
      obtain rfl := Option.some.inj hstep
      by_cases hbg : 0 < countVal (labeling (ccMask nIdx v)).2 0
      · have huniq : ccUniq labeling (ccMask nIdx v) =
            List.range (labeling (ccMask nIdx v)).1 := by
          rw [ccUniq]
          apply List.filter_eq_self.mpr
          intro u hu
          rw [List.mem_range] at hu
          apply decide_eq_true
          rcases Nat.eq_zero_or_pos u with rfl | hupos
          · exact hbg
          · exact (hcon (ccMask nIdx v)).2.2.2.1 u hupos hu
        refine ⟨vi2.map (fun i => i + st.counter), ?_, ?_⟩
        · show (vi2.map (fun i => i + st.counter)).foldl
            (fun d id => dictInsert d id v) st.dict = _
          rw [dictFold_append]
          · intro id hid e he
            obtain ⟨x, hx, rfl⟩ := List.mem_map.mp hid
            have := hge1 x hx
            have := hkeys e he
            omega
          · refine List.Nodup.map (fun a b hab => by omega) ?_
            exact hpw.imp (fun hab => Nat.ne_of_lt hab)
        · intro id hid
          obtain ⟨x, hx, rfl⟩ := List.mem_map.mp hid
          obtain ⟨hxlt, hxth⟩ := ccValidIdx_mem labeling (ccMask nIdx v) th x
            (hsub x hx)
          have hxlt2 : x < (labeling (ccMask nIdx v)).1 := by
            rwa [huniq, List.length_range] at hxlt
          have hgd : (ccUniq labeling (ccMask nIdx v)).getD x 0 = x := by
            rw [huniq]
            rw [getD_of_lt _ _ _ (by rwa [List.length_range])]
            rw [List.getElem_range]
          rw [hgd] at hxth
          show th < (countVal (labeling (ccMask nIdx v)).2
            (x + st.counter - st.counter) : ℚ)
          rw [Nat.add_sub_cancel]
          exact hxth
      · exfalso
        apply hemp
        have hfull : ∀ i j, ccMask nIdx v i j = true := by
          intro i j
          cases hmv : ccMask nIdx v i j
          · exfalso
            apply hbg
            have hl0 : (labeling (ccMask nIdx v)).2 i j = 0 :=
              ((hcon (ccMask nIdx v)).2.1 i j).mpr hmv
            rw [countVal]
            apply Finset.card_pos.mpr
            exact ⟨(i, j), Finset.mem_filter.mpr ⟨Finset.mem_univ _, hl0⟩⟩
          · rfl
        have hret : (labeling (ccMask nIdx v)).1 = 2 :=
          (hcon (ccMask nIdx v)).2.2.2.2 hfull
        have hpwu : (ccUniq labeling (ccMask nIdx v)).Pairwise (· < ·) :=
          List.Pairwise.sublist (List.filter_sublist _) (List.pairwise_lt_range _)
        have hmem1 : ∀ u ∈ ccUniq labeling (ccMask nIdx v), u = 1 := by
          intro u hu
          rw [ccUniq, List.mem_filter, List.mem_range, hret] at hu
          have hp := of_decide_eq_true hu.2
          rcases Nat.eq_zero_or_pos u with rfl | hupos
          · exact absurd hp hbg
          · omega
        have huniq_le : (ccUniq labeling (ccMask nIdx v)).length ≤ 1 := by
          by_contra hlen
          push_neg at hlen
          have h0 : (ccUniq labeling (ccMask nIdx v))[0] = 1 :=
            hmem1 _ (List.getElem_mem (by omega))
          have h1 : (ccUniq labeling (ccMask nIdx v))[1] = 1 :=
            hmem1 _ (List.getElem_mem (by omega))
          have hlt := List.pairwise_iff_getElem.mp hpwu 0 1
            (by omega) (by omega) (by omega)
          rw [h0, h1] at hlt
          omega
        rw [List.eq_nil_iff_forall_not_mem]
        intro x hx
        have hx1 := hge1 x hx
        have hx2 := (ccValidIdx_mem labeling (ccMask nIdx v) th x (hsub x hx)).1
        omega

/-- A 10x10 cluster-index image: cluster 0 fills rows 0-7 (one blob, 80
pixels = 80% of the area), cluster 1 is the single pixel (8,0) (one blob,
1 pixel = 1%), and the remaining 19 pixels hold the out-of-range value 2. -/
def nIdx10 : Fin 10 → Fin 10 → ℕ :=
  fun i j => if i.val < 8 then 0 else if i.val = 8 ∧ j.val = 0 then 1 else 2

/-- Labeling of a 10x10 mask whose foreground forms a single 4-connected
blob (as both masks arising from nIdx10 do): label 1 on the mask, 0 off
it; ret = 2 when the foreground is non-empty, else 1. -/
def labeling10 : (Fin 10 → Fin 10 → Bool) → ℕ × (Fin 10 → Fin 10 → ℕ) :=
  fun mask =>
    (if ∃ i j, mask i j = true then 2 else 1,
     fun i j => if mask i j then 1 else 0)

lemma labeling10_contract : LabelingContract labeling10 := by
  intro mask
  refine ⟨?_, ?_, ?_, ?_, ?_⟩
  · show 1 ≤ (if ∃ i j, mask i j = true then 2 else 1 : ℕ)
    split
    · omega
    · omega
  · intro i j
    show (if mask i j then 1 else 0 : ℕ) = 0 ↔ mask i j = false
    cases hm : mask i j
    · simp
    · simp
  · intro i j
    show (if mask i j then 1 else 0 : ℕ) <
      (if ∃ i j, mask i j = true then 2 else 1)
    cases hm : mask i j
    · simp only [Bool.false_eq_true, if_false]
      split
      · omega
      · omega
    · have hex : ∃ a b, mask a b = true := ⟨i, j, hm⟩
      rw [if_pos hex]
      simp
  · intro u hu1 hu2
    show 0 < countVal (fun i j => if mask i j then 1 else 0) u
    have hu2' : u < (if ∃ i j, mask i j = true then 2 else 1 : ℕ) := hu2
    by_cases hne : ∃ i j, mask i j = true
    · rw [if_pos hne] at hu2'
      obtain ⟨i, j, hm⟩ := hne
      have hu : u = 1 := by omega
      subst hu
      rw [countVal]
      apply Finset.card_pos.mpr
      refine ⟨(i, j), Finset.mem_filter.mpr ⟨Finset.mem_univ _, ?_⟩⟩
      show (if mask i j then 1 else 0 : ℕ) = 1
      rw [hm]
      rfl
    · rw [if_neg hne] at hu2'
      omega
  · intro hfull
    show (if ∃ i j, mask i j = true then 2 else 1 : ℕ) = 2
    have hex : ∃ a b, mask a b = true := ⟨0, 0, hfull 0 0⟩
    rw [if_pos hex]

lemma ccValidIdx10_0 : ccValidIdx labeling10 (ccMask nIdx10 0) 3 = [0, 1] := by
  decide

lemma ccValidIdx10_1 : ccValidIdx labeling10 (ccMask nIdx10 1) 3 = [0] := by
  decide

/-- The state after processing cluster 0 — and, since cluster 1's 1-pixel
blob is filtered out by the size threshold, after the whole run: component
ID 1 on the 80% blob and the single dict entry mapping component 1 to
cluster 0. -/
def ccSt1 : CCState 10 10 :=
  ⟨(([1] : List ℕ).map (fun i => i + 0)).foldl
      (ccWrite (labeling10 (ccMask nIdx10 0)).2 0) (fun _ _ => 0),
   (([1] : List ℕ).map (fun i => i + 0)).foldl
      (fun d id => dictInsert d id 0) [],
   0 + ([1] : List ℕ).foldr max 0⟩

lemma ccStep10_0 :
    ccStep labeling10 nIdx10 3 ⟨fun _ _ => 0, [], 0⟩ 0 = some ccSt1 := by
  simp only [ccStep]
  rw [ccValidIdx10_0]
  rfl

lemma ccStep10_1 : ccStep labeling10 nIdx10 3 ccSt1 1 = some ccSt1 := by
  simp only [ccStep]
  rw [ccValidIdx10_1]
  rfl

lemma ccRun_cons_some {h w : ℕ}
    (labeling : (Fin h → Fin w → Bool) → ℕ × (Fin h → Fin w → ℕ))
    (nIdx : Fin h → Fin w → ℕ) (th : ℚ) (st stm : CCState h w) (v : ℕ)
    (vs : List ℕ) (hs : ccStep labeling nIdx th st v = some stm) :
    ccRun labeling nIdx th st (v :: vs) = ccRun labeling nIdx th stm vs := by
  rw [ccRun, hs]

lemma ccRun10 :
    ccRun labeling10 nIdx10 3 ⟨fun _ _ => 0, [], 0⟩ [0, 1] = some ccSt1 := by
  rw [ccRun_cons_some labeling10 nIdx10 3 _ _ 0 [1] ccStep10_0,
    ccRun_cons_some labeling10 nIdx10 3 _ _ 1 [] ccStep10_1]
  rfl

/-- **C7** Region-extraction merge invariant: however the processed
valid-index list is split into an earlier and a later part, the dict after
the whole run extends the dict after the earlier part, every component ID
allocated by the later part strictly exceeds the counter reached by the
earlier part while earlier IDs are bounded by it (so IDs from different
cluster masks never collide and the key list is duplicate-free), and any
pixel of the shared global label image assigned by the earlier part is
never overwritten by the later part. -/
theorem get_connected_components_merge_invariant {h w : ℕ}
    (labeling : (Fin h → Fin w → Bool) → ℕ × (Fin h → Fin w → ℕ))
    (nIdx : Fin h → Fin w → ℕ) (l1 l2 : List ℕ) (fr : ℚ) (st2 : CCState h w)
    (hcon : LabelingContract labeling)
    (hnd : (l1 ++ l2).Nodup)
    (hrun : get_connected_components labeling nIdx (l1 ++ l2) fr = some st2) :
    ∃ st1 : CCState h w,
      ccRun labeling nIdx (((h * w : ℕ) : ℚ) * fr) ⟨fun _ _ => 0, [], 0⟩ l1
        = some st1 ∧
      ccRun labeling nIdx (((h * w : ℕ) : ℚ) * fr) st1 l2 = some st2 ∧
      (∀ e ∈ st1.dict, e.1 ≤ st1.counter) ∧
      (∃ d2, st2.dict = st1.dict ++ d2 ∧ ∀ e ∈ d2, st1.counter < e.1) ∧
      (st2.dict.map Prod.fst).Nodup ∧
      (∀ i j, st1.out i j ≠ 0 → st2.out i j = st1.out i j) := by
  rw [get_connected_components] at hrun
  obtain ⟨st1, h1, h2⟩ := ccRun_append labeling nIdx _ l1 l2 _ st2 hrun
  have hinit : CCInv nIdx [] (⟨fun _ _ => 0, [], 0⟩ : CCState h w) :=
    ⟨fun e he => absurd he (List.not_mem_nil e), List.nodup_nil,
     fun i j hne => absurd rfl hne⟩
  obtain ⟨ndl1, ndl2, hdisj⟩ := List.nodup_append.mp hnd
  obtain ⟨hinv1, _, _, _⟩ := ccRun_inv labeling nIdx _ hcon l1 [] _ st1
    hinit (by simp) ndl1 h1
  have hinv1' : CCInv nIdx l1 st1 := by rwa [List.nil_append] at hinv1
  obtain ⟨hinv2, _, hd2, hpres⟩ := ccRun_inv labeling nIdx _ hcon l2 l1 st1 st2
    hinv1' (fun v hv2 hv1 => hdisj hv1 hv2) ndl2 h2
  exact ⟨st1, h1, h2, fun e he => (hinv1'.1 e he).2, hd2, hinv2.2.1, hpres⟩

theorem get_connected_components_merge_invariant_witness :
    ∃ st1 : CCState 10 10,
      ccRun labeling10 nIdx10 (((10 * 10 : ℕ) : ℚ) * (3 / 100))
        ⟨fun _ _ => 0, [], 0⟩ [0] = some st1 ∧
      ccRun labeling10 nIdx10 (((10 * 10 : ℕ) : ℚ) * (3 / 100)) st1 [1]
        = some ccSt1 ∧
      (∀ e ∈ st1.dict, e.1 ≤ st1.counter) ∧
      (∃ d2, ccSt1.dict = st1.dict ++ d2 ∧ ∀ e ∈ d2, st1.counter < e.1) ∧
      (ccSt1.dict.map Prod.fst).Nodup ∧
      (∀ i j, st1.out i j ≠ 0 → ccSt1.out i j = st1.out i j) :=
  get_connected_components_merge_invariant labeling10 nIdx10 [0] [1] (3 / 100)
    ccSt1 labeling10_contract (by decide) (by
      show get_connected_components labeling10 nIdx10 [0, 1] (3 / 100)
        = some ccSt1
      rw [get_connected_components]
      rw [show ((10 * 10 : ℕ) : ℚ) * (3 / 100) = 3 from by norm_num]
      exact ccRun10)

/-- **C8** Region size filtering: every component entry a step of
get_connected_components adds to the component dict comes from a component
whose pixel count strictly exceeds the size threshold (components at or
below it are discarded); concretely, on the 10x10 image nIdx10 with one
blob of 80% of the pixels and one blob of 1%, with fraction threshold
3/100, the run returns exactly one valid region: the dict is [(1, 0)]. -/
theorem get_connected_components_size_filtering :
    (∀ (h w : ℕ)
        (labeling : (Fin h → Fin w → Bool) → ℕ × (Fin h → Fin w → ℕ))
        (nIdx : Fin h → Fin w → ℕ) (th : ℚ) (st st2 : CCState h w) (v : ℕ),
        LabelingContract labeling →
        (∀ e ∈ st.dict, e.1 ≤ st.counter) →
        ccStep labeling nIdx th st v = some st2 →
        ∃ newIds : List ℕ,
          st2.dict = st.dict ++ newIds.map (fun id => (id, v)) ∧
          ∀ id ∈ newIds,
            th < (countVal (labeling (ccMask nIdx v)).2 (id - st.counter) : ℚ)) ∧
    (∃ stf : CCState 10 10,
        get_connected_components labeling10 nIdx10 [0, 1] (3 / 100) = some stf ∧
        stf.dict = [(1, 0)]) := by
  constructor
  · intro h w labeling nIdx th st st2 v hcon hkeys hstep
    exact ccStep_threshold labeling nIdx th st st2 v hcon hkeys hstep
  · refine ⟨ccSt1, ?_, ?_⟩
    · rw [get_connected_components]
      rw [show ((10 * 10 : ℕ) : ℚ) * (3 / 100) = 3 from by norm_num]
      exact ccRun10
    · decide
